import Mathlib

/-!
Verification of the hpkvfs-cloud chunked-filesystem layer.

A shallow embedding of the chunked file emulation layer of the repository:
the write / read / delete / list API route handlers that map file paths and
byte ranges onto records of a flat key-value store.

Modelling conventions:

* A JavaScript string is a sequence of UTF-16 code units and a Node `Buffer`
  is a sequence of bytes; both are embedded as `List Nat` (`JStr`).
* The key-value store is an association list from keys (`JStr`) to values.
  A stored value is either a plain string (`StoreVal.vstr`, chunk records) or
  a metadata record (`StoreVal.vmeta`).  JSON serialisation of metadata
  (`JSON.stringify` on write, `JSON.parse` on read) is modelled by the
  `StoreVal.vmeta` constructor: writing stores the record itself, reading it
  back parses successfully, and any other value found at a metadata key is
  modelled as failing to parse.  `metaJson` gives the JSON text of a record
  for the (unreachable in the theorems below) case where a metadata value is
  read through the chunk API.
* Node's `buffer.toString('utf8')` and `Buffer.from(string, 'utf8')` are
  modelled by `bufToStr` / `strToBuf`: UTF-8 decoding with U+FFFD
  replacement of invalid sequences, and UTF-8 encoding with U+FFFD
  replacement of lone surrogates.
* The HTTP transport (query parsing, base64 decoding of the request body,
  header checks) is outside the layer under study; each handler is modelled
  from the point where its inputs (path, offset, decoded byte buffer,
  current Unix time `now`) are available.  `Date.now()` is passed in as the
  parameter `now`.
* The remote store itself never fails in the model, except where a failure
  is injected explicitly (the `chunkListFails` flag of `DeleteRoute.DELETE`,
  modelling a store error during the chunk prefix scan).
-/

/-- JS strings (UTF-16 code-unit sequences) and byte buffers, both as `List Nat`. -/
abbrev JStr := List Nat

/-- The code units of an ASCII Lean string literal. -/
def strU (s : String) : JStr := s.data.map Char.toNat

/-! ## Constants (src/lib/constants.ts) -/

def METADATA_SUFFIX : JStr := strU ".__meta__"

def CHUNK_SUFFIX : JStr := strU ".chunk"

/-- `MAX_CHUNK_SIZE = 3000` (max store value size is 3072, leave some buffer). -/
def MAX_CHUNK_SIZE : Nat := 3000

/-- `DEFAULT_DIR_MODE = 16877` (0o40755, directory). -/
def DEFAULT_DIR_MODE : Nat := 16877

/-- `DEFAULT_FILE_MODE = 33188` (0o100644, regular file). -/
def DEFAULT_FILE_MODE : Nat := 33188

/-! ## Decimal printing of chunk indices

`chunkKey` interpolates the chunk index into a template string; for a
natural number this is its decimal digits without leading zeros. -/

/-- A decimal digit as its UTF-16 code unit. -/
def digitUnit (d : Nat) : Nat := 48 + d

/-- Fuel-bounded core of decimal printing (the fuel bounds the digit count). -/
def decDigitsCore : Nat → Nat → JStr
  | 0, _ => []
  | fuel+1, n => if n = 0 then [] else decDigitsCore fuel (n / 10) ++ [digitUnit (n % 10)]

/-- Decimal digits of a natural number, as in JS template interpolation. -/
def decDigits (n : Nat) : JStr := if n = 0 then [digitUnit 0] else decDigitsCore n n

/-- Evaluation of a decimal digit string, used to prove `decDigits` injective. -/
def fromDigits (l : JStr) : Nat := l.foldl (fun a d => a * 10 + (d - 48)) 0

/-! ## Key derivation (KeyCodec) -/

/-- `path + METADATA_SUFFIX` (write route line 26 and peers). -/
def metadataKey (path : JStr) : JStr := path ++ METADATA_SUFFIX

/-- `path + CHUNK_SUFFIX + chunkIndex` (write route line 71 and peers). -/
def chunkKey (path : JStr) (i : Nat) : JStr := path ++ CHUNK_SUFFIX ++ decDigits i

/-- `path + CHUNK_SUFFIX`, the scan target of cascading delete. -/
def chunkKeyPre (path : JStr) : JStr := path ++ CHUNK_SUFFIX

/-! ## Metadata records -/

/-- The `Metadata` interface: `num_chunks` is optional on the wire. -/
structure MetaRec where
  mode : Nat
  uid : Nat
  gid : Nat
  size : Nat
  atime : Nat
  mtime : Nat
  ctime : Nat
  num_chunks : Option Nat
deriving DecidableEq

/-- `Math.ceil(a / b)` for naturals. -/
def ceilDiv (a b : Nat) : Nat := (a + b - 1) / b

/-- Write route lines 47-49 (and the identical code in the read and delete
routes): after `JSON.parse`, if `size > 0` and `num_chunks` is `undefined`,
set `num_chunks = Math.ceil(size / MAX_CHUNK_SIZE)`. -/
def normalizeMeta (m : MetaRec) : MetaRec :=
  if 0 < m.size ∧ m.num_chunks = none
  then { m with num_chunks := some (ceilDiv m.size MAX_CHUNK_SIZE) }
  else m

/-- `(mode & 0o170000) === 0o040000` (S_IFDIR).  The mask keeps bits 12-15 of
the mode, so the test says those four bits equal `0o04 = 4`; on naturals that
is `mode / 4096 % 16 == 4`. -/
def isDir (m : MetaRec) : Bool := m.mode / 4096 % 16 == 4

/-- Write route lines 162-171: the metadata record synthesised for a newly
created file (placeholder uid/gid 1000). -/
def newFileMeta (now : Nat) : MetaRec :=
  { mode := DEFAULT_FILE_MODE, uid := 1000, gid := 1000, size := 0,
    atime := now, mtime := now, ctime := now, num_chunks := some 0 }

/-- Write route lines 232-238: the metadata record persisted after a
successful chunk loop: `size = max(oldSize, writeEnd)`, fresh `mtime`/`atime`,
`ctime` refreshed only for a new file, `num_chunks = ceil(size / MAX_CHUNK_SIZE)`. -/
def postMeta (m : MetaRec) (isNewFile : Bool) (writeEnd now : Nat) : MetaRec :=
  { m with
    size := max m.size writeEnd, mtime := now, atime := now,
    ctime := if isNewFile then now else m.ctime,
    num_chunks := some (ceilDiv (max m.size writeEnd) MAX_CHUNK_SIZE) }

/-! ## Node `Buffer` text codecs

`buffer.toString('utf8')` decodes bytes as UTF-8, replacing each maximal
invalid subpart with U+FFFD; `Buffer.from(string, 'utf8')` encodes UTF-16
code units as UTF-8, replacing lone surrogates with U+FFFD.  Both are written
with explicit fuel (one unit per emitted code point, so the input length is
always enough fuel) to keep them kernel-reducible. -/

/-- A UTF-8 continuation byte. -/
abbrev isCont (b : Nat) : Prop := 0x80 ≤ b ∧ b ≤ 0xBF

/-- Fuel-bounded UTF-8 decoding to code points (WHATWG semantics). -/
def utf8DecodeCore : Nat → List Nat → List Nat
  | 0, _ => []
  | _, [] => []
  | fuel+1, b :: t =>
    if b < 0x80 then b :: utf8DecodeCore fuel t
    else if 0xC2 ≤ b ∧ b ≤ 0xDF then
      match t with
      | [] => [0xFFFD]
      | b1 :: t1 =>
        if isCont b1 then (b % 0x20 * 0x40 + b1 % 0x40) :: utf8DecodeCore fuel t1
        else 0xFFFD :: utf8DecodeCore fuel t
    else if 0xE0 ≤ b ∧ b ≤ 0xEF then
      match t with
      | [] => [0xFFFD]
      | b1 :: t1 =>
        if (if b = 0xE0 then 0xA0 ≤ b1 ∧ b1 ≤ 0xBF
            else if b = 0xED then 0x80 ≤ b1 ∧ b1 ≤ 0x9F
            else isCont b1) then
          match t1 with
          | [] => [0xFFFD]
          | b2 :: t2 =>
            if isCont b2 then
              (b % 0x10 * 0x1000 + b1 % 0x40 * 0x40 + b2 % 0x40) :: utf8DecodeCore fuel t2
            else 0xFFFD :: utf8DecodeCore fuel t1
        else 0xFFFD :: utf8DecodeCore fuel t
    else if 0xF0 ≤ b ∧ b ≤ 0xF4 then
      match t with
      | [] => [0xFFFD]
      | b1 :: t1 =>
        if (if b = 0xF0 then 0x90 ≤ b1 ∧ b1 ≤ 0xBF
            else if b = 0xF4 then 0x80 ≤ b1 ∧ b1 ≤ 0x8F
            else isCont b1) then
          match t1 with
          | [] => [0xFFFD]
          | b2 :: t2 =>
            if isCont b2 then
              match t2 with
              | [] => [0xFFFD]
              | b3 :: t3 =>
                if isCont b3 then
                  (b % 8 * 0x40000 + b1 % 0x40 * 0x1000 + b2 % 0x40 * 0x40 + b3 % 0x40)
                    :: utf8DecodeCore fuel t3
                else 0xFFFD :: utf8DecodeCore fuel t2
            else 0xFFFD :: utf8DecodeCore fuel t1
        else 0xFFFD :: utf8DecodeCore fuel t
    else 0xFFFD :: utf8DecodeCore fuel t

/-- UTF-8 decoding of a byte buffer to code points. -/
def utf8DecodeCps (l : List Nat) : List Nat := utf8DecodeCore l.length l

/-- The UTF-16 code units of a code point (surrogate pair above U+FFFF). -/
def utf16Units (cp : Nat) : List Nat :=
  if cp < 0x10000 then [cp]
  else [0xD800 + (cp - 0x10000) / 0x400, 0xDC00 + (cp - 0x10000) % 0x400]

/-- Node `buffer.toString('utf8')`: decode to code points, then UTF-16 units. -/
def bufToStr (b : List Nat) : JStr :=
  (utf8DecodeCps b).foldr (fun cp acc => utf16Units cp ++ acc) []

/-- The UTF-8 bytes of one code point. -/
def utf8EncodeCp (cp : Nat) : List Nat :=
  if cp < 0x80 then [cp]
  else if cp < 0x800 then [0xC0 + cp / 0x40, 0x80 + cp % 0x40]
  else if cp < 0x10000 then [0xE0 + cp / 0x1000, 0x80 + cp / 0x40 % 0x40, 0x80 + cp % 0x40]
  else [0xF0 + cp / 0x40000, 0x80 + cp / 0x1000 % 0x40, 0x80 + cp / 0x40 % 0x40, 0x80 + cp % 0x40]

/-- Fuel-bounded UTF-16-to-UTF-8 encoding (lone surrogates become U+FFFD). -/
def strToBufCore : Nat → JStr → List Nat
  | 0, _ => []
  | _, [] => []
  | fuel+1, u :: t =>
    if u < 0xD800 ∨ 0xE000 ≤ u then utf8EncodeCp u ++ strToBufCore fuel t
    else if u < 0xDC00 then
      match t with
      | [] => utf8EncodeCp 0xFFFD
      | u2 :: t2 =>
        if 0xDC00 ≤ u2 ∧ u2 < 0xE000 then
          utf8EncodeCp (0x10000 + (u - 0xD800) * 0x400 + (u2 - 0xDC00)) ++ strToBufCore fuel t2
        else utf8EncodeCp 0xFFFD ++ strToBufCore fuel t
    else utf8EncodeCp 0xFFFD ++ strToBufCore fuel t

/-- Node `Buffer.from(s, 'utf8')`. -/
def strToBuf (s : JStr) : List Nat := strToBufCore s.length s

/-! ## Byte-buffer operations -/

/-- Byte `i` of a buffer, `0` beyond its end (also the logical value of an
unmaterialised sparse byte). -/
def byteAt : List Nat → Nat → Nat
  | [], _ => 0
  | b :: _, 0 => b
  | _ :: t, i+1 => byteAt t i

/-- `src.copy(dst, start)` for whole `src`: overwrite `dst` from position
`start` with `src`, clipped at the end of `dst`; the length of `dst` is kept. -/
def overlay (dst : List Nat) (start : Nat) (src : List Nat) : List Nat :=
  dst.take start ++ src.take (dst.length - start) ++ dst.drop (start + src.length)

/-- The source slice `[a, b)` taken by `src.copy(target, _, a, b)` (Node clips
`b` at the end of `src`). -/
def listCopySlice (src : List Nat) (a b : Nat) : List Nat := (src.drop a).take (b - a)

/-- Write route lines 206-221: assemble the new chunk buffer.
`Buffer.alloc` zero-fills; then the three `copy` calls lay down the existing
prefix before the write window, the incoming data slice, and the existing
suffix after the window. -/
def buildNewChunk (existingChunk writeData : List Nat) (wsic wec cwo btw : Nat) : List Nat :=
  let newChunkSize := max existingChunk.length wec
  let c0 := List.replicate newChunkSize 0
  let c1 := if 0 < wsic
    then overlay c0 0 (listCopySlice existingChunk 0 (min wsic existingChunk.length))
    else c0
  let c2 := overlay c1 wsic (listCopySlice writeData cwo (cwo + btw))
  if wec < existingChunk.length
  then overlay c2 wec (listCopySlice existingChunk wec existingChunk.length)
  else c2

/-! ## The key-value store -/

/-- JSON text of a metadata record (`JSON.stringify` with the interface's
field order; an `undefined` `num_chunks` is omitted). -/
def metaJson (m : MetaRec) : JStr :=
  strU "\x7b\"mode\":" ++ decDigits m.mode ++ strU ",\"uid\":" ++ decDigits m.uid
  ++ strU ",\"gid\":" ++ decDigits m.gid ++ strU ",\"size\":" ++ decDigits m.size
  ++ strU ",\"atime\":" ++ decDigits m.atime ++ strU ",\"mtime\":" ++ decDigits m.mtime
  ++ strU ",\"ctime\":" ++ decDigits m.ctime
  ++ (match m.num_chunks with
      | none => []
      | some n => strU ",\"num_chunks\":" ++ decDigits n)
  ++ strU "\x7d"

/-- A stored value: a plain string or a (JSON-serialised) metadata record. -/
inductive StoreVal where
  | vstr (s : JStr)
  | vmeta (m : MetaRec)
deriving DecidableEq

/-- The string stored for a value (chunk values are stored verbatim;
metadata is stored as its JSON text). -/
def valString : StoreVal → JStr
  | .vstr s => s
  | .vmeta m => metaJson m

/-- The store: an association list from keys to values. -/
abbrev Store := List (JStr × StoreVal)

/-- `GET /record`: the value at a key, if present. -/
def kvGet : Store → JStr → Option StoreVal
  | [], _ => none
  | (k, v) :: rest, key => if k = key then some v else kvGet rest key

/-- `DELETE /record`: remove a key (absent key is a tolerated no-op). -/
def kvDelete : Store → JStr → Store
  | [], _ => []
  | (k, v) :: rest, key => if k = key then kvDelete rest key else (k, v) :: kvDelete rest key

/-- `POST /record` (upsert). -/
def kvPut (st : Store) (key : JStr) (v : StoreVal) : Store := (key, v) :: kvDelete st key

/-- All stored keys extending a prefix (the `/list` endpoint without a
delimiter; pagination is a single page over this finite store). -/
def listKeysUnder (pre : JStr) : Store → List JStr
  | [] => []
  | (k, _) :: rest =>
    if pre.isPrefixOf k then k :: listKeysUnder pre rest else listKeysUnder pre rest

/-- The error outcomes of the route handlers. -/
inductive Err where
  | invalidArgument
  | notFound
  | isADirectory
  | corruptMetadata
  | directoryNotEmpty
deriving DecidableEq

/-- The ascending index list of a JS `for (let i = a; i <= b; i++)` loop,
as `idxRange a (b + 1 - a)`. -/
def idxRange : Nat → Nat → List Nat
  | _, 0 => []
  | s, k+1 => s :: idxRange (s+1) k

/-- `String.prototype.substring` with its argument clamping and swapping. -/
def jsSubstring (s : JStr) (a b : Nat) : JStr := (s.take (max a b)).drop (min a b)

/-- The `path.endsWith("/") ? path : path + "/"` child prefix used by
directory deletion (part_003 line 146). -/
def dirPre (path : JStr) : JStr := if [47].isSuffixOf path then path else path ++ strU "/"

/-! ## The write route (src/app/api/write/route.ts, POST handler) -/

namespace WriteRoute

/-- Lines 25-54: fetch and parse metadata; a 404 is not an error here. -/
def getMetadata (path : JStr) (st : Store) : Except Err (Option MetaRec) :=
  match kvGet st (metadataKey path) with
  | none => .ok none
  | some (.vmeta m) => .ok (some (normalizeMeta m))
  | some (.vstr _) => .error .corruptMetadata

/-- Lines 57-67: serialise and store metadata. -/
def writeMetadata (path : JStr) (m : MetaRec) (st : Store) : Store :=
  kvPut st (metadataKey path) (.vmeta m)

/-- Lines 70-81: upsert one chunk record. -/
def writeChunk (path : JStr) (i : Nat) (chunkData : JStr) (st : Store) : Store :=
  kvPut st (chunkKey path i) (.vstr chunkData)

/-- Lines 84-102: fetch one chunk; a 404 yields `none` (sparse chunk). -/
def getChunk (path : JStr) (i : Nat) (st : Store) : Option JStr :=
  (kvGet st (chunkKey path i)).map valString

/-- Lines 188-230: the read-modify-write loop over the affected chunk
indices, threading `currentWriteOffset` and the store.  The store never
fails in the model, so the early error returns of the source cannot fire. -/
def writeChunksLoop (path : JStr) (offset : Nat) (writeData : List Nat) :
    List Nat → Nat → Store → Store × Nat
  | [], cwo, st => (st, cwo)
  | i :: rest, cwo, st =>
    let chunkStart := i * MAX_CHUNK_SIZE
    let existingChunk := match getChunk path i st with
      | some s => strToBuf s
      | none => []
    let writeStartInChunk := offset - chunkStart
    let writeEndInChunk := min MAX_CHUNK_SIZE (offset + writeData.length - chunkStart)
    let bytesToWriteInChunk := writeEndInChunk - writeStartInChunk
    let newChunk :=
      buildNewChunk existingChunk writeData writeStartInChunk writeEndInChunk cwo
        bytesToWriteInChunk
    writeChunksLoop path offset writeData rest (cwo + bytesToWriteInChunk)
      (writeChunk path i (bufToStr newChunk) st)

/-- Lines 104-252: the POST handler after transport checks and base64
decoding; `writeData` is the decoded byte buffer.  Line 142: a zero-length
write returns `bytesWritten: 0` at once.  Lines 149-246: load or synthesise
metadata, reject directories, run the chunk loop, persist updated metadata. -/
def POST (path : JStr) (offset : Nat) (writeData : List Nat) (now : Nat) (st : Store) :
    Except Err (Store × Nat) :=
  let size := writeData.length
  if size = 0 then .ok (st, 0)
  else
    match getMetadata path st with
    | .error e => .error e
    | .ok mOpt =>
      let isNewFile := mOpt.isNone
      let metadata := match mOpt with
        | some m => m
        | none => newFileMeta now
      if mOpt.isSome && isDir metadata then .error .isADirectory
      else
        let writeEnd := offset + size
        let startChunk := offset / MAX_CHUNK_SIZE
        let endChunk := (writeEnd - 1) / MAX_CHUNK_SIZE
        let r := writeChunksLoop path offset writeData
          (idxRange startChunk (endChunk + 1 - startChunk)) 0 st
        .ok (writeMetadata path (postMeta metadata isNewFile writeEnd now) r.1, size)

end WriteRoute

/-! ## The read route (src/app/api/write/route.ts, GET handler) -/

namespace ReadRoute

/-- Lines 270-297: this copy of `getMetadata` does **not** special-case 404:
a missing record surfaces as an error (status 404). -/
def getMetadata (path : JStr) (st : Store) : Except Err MetaRec :=
  match kvGet st (metadataKey path) with
  | none => .error .notFound
  | some (.vmeta m) => .ok (normalizeMeta m)
  | some (.vstr _) => .error .corruptMetadata

/-- Lines 300-318: fetch one chunk; a 404 is reported with a null error
(sparse chunk). -/
def getChunk (path : JStr) (i : Nat) (st : Store) : Option JStr :=
  (kvGet st (chunkKey path i)).map valString

/-- Lines 376-404: the chunk-stitching loop, accumulating
`(combinedData, bytesRead)`.  The loop condition `i <= endChunk && i < numChunks`
stops the whole loop once `i < numChunks` fails; a missing chunk contributes
nothing; the loop breaks early once `bytesRead >= readSize`. -/
def readChunksLoop (path : JStr) (offset readSize numChunks : Nat) (st : Store) :
    List Nat → JStr → Nat → JStr × Nat
  | [], acc, br => (acc, br)
  | i :: rest, acc, br =>
    if i < numChunks then
      let chunkContent := (getChunk path i st).getD []
      let chunkStartOffset := i * MAX_CHUNK_SIZE
      let readStartInChunk := offset - chunkStartOffset
      let readEndInChunk := min chunkContent.length (offset + readSize - chunkStartOffset)
      let bytesToReadFromChunk := readEndInChunk - readStartInChunk
      let acc1 := if 0 < bytesToReadFromChunk
        then acc ++ jsSubstring chunkContent readStartInChunk readEndInChunk
        else acc
      let br1 := br + bytesToReadFromChunk
      if readSize ≤ br1 then (acc1, br1)
      else readChunksLoop path offset readSize numChunks st rest acc1 br1
    else (acc, br)

/-- Lines 320-423: the GET (read) handler after transport checks.  Line 342:
a size-0 read returns an empty body at once.  The returned bytes are the
UTF-8 serialisation of the accumulated JS string (the HTTP response body). -/
def GET (path : JStr) (offset size : Nat) (st : Store) : Except Err (List Nat) :=
  if size = 0 then .ok []
  else
    match getMetadata path st with
    | .error e => .error e
    | .ok metadata =>
      if isDir metadata then .error .isADirectory
      else
        let fileSize := metadata.size
        if fileSize ≤ offset then .ok []
        else
          let readSize := min size (fileSize - offset)
          if readSize = 0 then .ok []
          else
            let numChunks := metadata.num_chunks.getD (ceilDiv fileSize MAX_CHUNK_SIZE)
            let startChunk := offset / MAX_CHUNK_SIZE
            let endChunk := (offset + readSize - 1) / MAX_CHUNK_SIZE
            let r := readChunksLoop path offset readSize numChunks st
              (idxRange startChunk (endChunk + 1 - startChunk)) [] 0
            let combined := if readSize < r.1.length then r.1.take readSize else r.1
            .ok (strToBuf combined)

end ReadRoute

/-! ## The delete route (src/unnamed/part_003, DELETE handler) -/

namespace DeleteRoute

/-- Part_003 lines 29-57: like the write route's `getMetadata` (404 is
tolerated), but the root path uses the reserved key `/.__meta__`. -/
def getMetadata (path : JStr) (st : Store) : Except Err (Option MetaRec) :=
  let mk := if path = strU "/" then strU "/.__meta__" else metadataKey path
  match kvGet st mk with
  | none => .ok none
  | some (.vmeta m) => .ok (some (normalizeMeta m))
  | some (.vstr _) => .error .corruptMetadata

/-- Part_003 lines 60-105 (`listAllKeysWithPrefix`): marker-paginated prefix
scan; the whole association-list store is one page here. -/
def listAllKeysUnder (pre : JStr) (st : Store) : List JStr := listKeysUnder pre st

/-- Part_003 lines 117-198: the DELETE handler.  `chunkListFails` injects a
store failure into the chunk prefix scan (lines 174-180), the only store
failure the handler tolerates: it logs and proceeds with the metadata key
alone.  Single-key deletions never fail in the model (a 404 is already a
tolerated no-op in the source, lines 108-115), so `Promise.all` cannot
surface an error.  Returns the outcome together with the resulting store
(unchanged whenever nothing was deleted). -/
def DELETE (path : JStr) (chunkListFails : Bool) (st : Store) : Except Err Unit × Store :=
  if path = [] ∨ path = strU "/" then (.error .invalidArgument, st)
  else
    match getMetadata path st with
    | .error e => (.error e, st)
    | .ok mOpt =>
      let isDirectory := match mOpt with
        | some m => isDir m
        | none => false
      let mk := metadataKey path
      if isDirectory then
        let childKeys := listAllKeysUnder (dirPre path) st
        if 0 < childKeys.length then (.error .directoryNotEmpty, st)
        else (.ok (), kvDelete st mk)
      else
        let keysToDelete := [mk]
        let keys2 := if chunkListFails then keysToDelete
          else keysToDelete ++ listAllKeysUnder (chunkKeyPre path) st
        (.ok (), keys2.foldl kvDelete st)

end DeleteRoute

/-! ## The list route (src/app/api/list/route.ts) -/

/-- A directory listing entry. -/
structure Entry where
  name : JStr
  isDir : Bool
deriving DecidableEq

namespace ListRoute

/-- The segment of a string up to and including its first `/`. -/
def upToSlash : JStr → JStr
  | [] => []
  | u :: t => if u = 47 then [47] else u :: upToSlash t

/-- Roll a key up to its common-prefix item for delimiter `/`. -/
def rollUpSlash (pre : JStr) (k : JStr) : JStr :=
  let rest := k.drop pre.length
  if 47 ∈ rest then pre ++ upToSlash rest else k

/-- Keep the first occurrence of each key. -/
def dedupKeysFirst : List JStr → List JStr → List JStr
  | [], _ => []
  | k :: t, seen => if k ∈ seen then dedupKeysFirst t seen else k :: dedupKeysFirst t (k :: seen)

/-- Modelled from the spec: the external key-value service's
`LIST prefix, delimiter` (spec section 6), which the list route calls with
delimiter `/` (route line 33); the service itself is not part of this
repository.  Keys under the prefix that contain the delimiter after it are
rolled up into one common-prefix item `pre ++ (first segment incl. "/")`;
other keys are returned as-is. -/
def kvListDelim (st : Store) (pre : JStr) : List JStr :=
  dedupKeysFirst ((listKeysUnder pre st).map (rollUpSlash pre)) []

/-- Route lines 49-87: the per-item classification loop; `seen` models the
`processedPrefixes` set.  A metadata key of a direct child becomes a
file-typed entry (the route's documented default); an item whose remainder
contains `/` records its first segment as a directory once. -/
def processItems (pre : JStr) : List JStr → List JStr → List Entry
  | [], _ => []
  | k :: rest, seen =>
    if pre = strU "/" ∧ k = strU "/.__meta__" then processItems pre rest seen
    else if k = pre.dropLast ++ METADATA_SUFFIX then processItems pre rest seen
    else if METADATA_SUFFIX.isSuffixOf k then
      let fullPath := k.take (k.length - METADATA_SUFFIX.length)
      if pre.isPrefixOf fullPath then
        let nm := fullPath.drop pre.length
        if nm ≠ [] ∧ 47 ∉ nm then ⟨nm, false⟩ :: processItems pre rest seen
        else processItems pre rest seen
      else processItems pre rest seen
    else if pre.isPrefixOf k then
      match (k.drop pre.length).splitOn 47 with
      | p0 :: _ :: _ =>
        if p0 ≠ [] then
          if p0 ∈ seen then processItems pre rest seen
          else ⟨p0, true⟩ :: processItems pre rest (p0 :: seen)
        else processItems pre rest seen
      | _ => processItems pre rest seen
    else processItems pre rest seen

/-- Route line 90: `new Map(entries.map(e => [e.name, e]))` keeps, for each
name, the position of its first occurrence and the value of its last. -/
def mapUpsert (acc : List Entry) (e : Entry) : List Entry :=
  if acc.any (fun x => x.name == e.name) then
    acc.map (fun x => if x.name == e.name then e else x)
  else acc ++ [e]

/-- De-duplicate entries by name as the route's `Map` construction does. -/
def dedupeByName (l : List Entry) : List Entry := l.foldl mapUpsert []

/-- Route lines 12-92: the GET (list) handler: normalise the path to a
`/`-terminated prefix (line 27), fetch the delimiter listing, classify and
de-duplicate. -/
def GET (path : JStr) (st : Store) : List Entry :=
  let pre := if path = strU "/" then strU "/"
    else if [47].isSuffixOf path then path else path ++ strU "/"
  dedupeByName (processItems pre (kvListDelim st pre) [])

end ListRoute

/-! ## Observation scaffolding used by the theorems -/

/-- All bytes / code units are ASCII (below 0x80). -/
def asciiL (l : List Nat) : Prop := ∀ b ∈ l, b < 128

/-- The value stored for chunk `i` of `path` is absent or an ASCII string. -/
def chunkOk (st : Store) (p : JStr) (i : Nat) : Prop :=
  match kvGet st (chunkKey p i) with
  | none => True
  | some (.vstr s) => asciiL s
  | some (.vmeta _) => False

/-- Logical byte `k` of the file at `p`: byte `k % MAX_CHUNK_SIZE` of the
byte decoding of stored chunk `k / MAX_CHUNK_SIZE`, with a missing chunk or
a position beyond the stored buffer reading as `0` (sparse semantics). -/
def fileByte (st : Store) (p : JStr) (k : Nat) : Nat :=
  match kvGet st (chunkKey p (k / MAX_CHUNK_SIZE)) with
  | some v => byteAt (strToBuf (valString v)) (k % MAX_CHUNK_SIZE)
  | none => 0

/-- The existing chunk buffer the write loop reads for index `i`. -/
def existingAt (st : Store) (p : JStr) (i : Nat) : List Nat :=
  match kvGet st (chunkKey p i) with
  | some v => strToBuf (valString v)
  | none => []

/-- The chunk buffer the write loop builds for index `i` when writing
`data` at `offset` over the store `st`. -/
def newChunkAt (st : Store) (p : JStr) (offset : Nat) (data : List Nat) (i : Nat) :
    List Nat :=
  buildNewChunk (existingAt st p i) data
    (offset - i * MAX_CHUNK_SIZE)
    (min MAX_CHUNK_SIZE (offset + data.length - i * MAX_CHUNK_SIZE))
    (i * MAX_CHUNK_SIZE - offset)
    (min MAX_CHUNK_SIZE (offset + data.length - i * MAX_CHUNK_SIZE)
      - (offset - i * MAX_CHUNK_SIZE))

/-! # Theorems

Byte-buffer lemmas -/

theorem byteAt_nil (i : Nat) : byteAt [] i = 0 := by cases i <;> rfl

theorem byteAt_cons_succ (b : Nat) (t : List Nat) (i : Nat) :
    byteAt (b :: t) (i + 1) = byteAt t i := rfl

theorem byteAt_append (a b : List Nat) (i : Nat) :
    byteAt (a ++ b) i = if i < a.length then byteAt a i else byteAt b (i - a.length) := by
  induction a generalizing i with
  | nil => simp [byteAt_nil]
  | cons x t ih =>
    cases i with
    | zero => simp [byteAt]
    | succ j =>
      simp only [List.cons_append, byteAt_cons_succ, ih, List.length_cons]
      by_cases h : j < t.length
      · rw [if_pos h, if_pos (by omega)]
      · rw [if_neg h, if_neg (by omega)]
        congr 1
        omega

theorem byteAt_eq_zero (l : List Nat) (i : Nat) (h : l.length ≤ i) : byteAt l i = 0 := by
  induction l generalizing i with
  | nil => exact byteAt_nil i
  | cons x t ih =>
    cases i with
    | zero => simp at h
    | succ j => exact byteAt_cons_succ x t j ▸ ih j (by simpa using h)

theorem byteAt_replicate_zero (n i : Nat) : byteAt (List.replicate n 0) i = 0 := by
  induction n generalizing i with
  | zero => exact byteAt_nil i
  | succ m ih =>
    cases i with
    | zero => rfl
    | succ j => simpa [List.replicate_succ] using ih j

theorem byteAt_take (l : List Nat) (n i : Nat) :
    byteAt (l.take n) i = if i < n then byteAt l i else 0 := by
  induction l generalizing n i with
  | nil => simp [byteAt_nil]
  | cons x t ih =>
    cases n with
    | zero => simp [byteAt_nil]
    | succ m =>
      cases i with
      | zero => simp [byteAt]
      | succ j =>
        simp only [List.take_succ_cons, byteAt_cons_succ, ih, Nat.add_lt_add_iff_right]

theorem byteAt_drop (l : List Nat) (n i : Nat) : byteAt (l.drop n) i = byteAt l (n + i) := by
  induction l generalizing n with
  | nil => simp [byteAt_nil]
  | cons x t ih =>
    cases n with
    | zero => simp
    | succ m =>
      simp only [List.drop_succ_cons, ih]
      rw [show m + 1 + i = (m + i) + 1 by omega, byteAt_cons_succ]

theorem mem_of_byteAt_ne (l : List Nat) (i : Nat) (h : byteAt l i ≠ 0) : byteAt l i ∈ l := by
  induction l generalizing i with
  | nil => simp [byteAt_nil] at h
  | cons x t ih =>
    cases i with
    | zero => exact List.mem_cons_self x t
    | succ j => exact List.mem_cons_of_mem x (ih j h)

theorem byteAt_lt_of_asciiL (l : List Nat) (i : Nat) (h : asciiL l) : byteAt l i < 128 := by
  by_cases hz : byteAt l i = 0
  · omega
  · exact h _ (mem_of_byteAt_ne l i hz)

theorem length_overlay (d x : List Nat) (s : Nat) : (overlay d s x).length = d.length := by
  simp only [overlay, List.length_append, List.length_take, List.length_drop]
  omega

theorem byteAt_overlay (d x : List Nat) (s i : Nat) :
    byteAt (overlay d s x) i =
      if s ≤ i ∧ i < s + x.length ∧ i < d.length then byteAt x (i - s) else byteAt d i := by
  unfold overlay
  rw [List.append_assoc, byteAt_append, byteAt_append]
  simp only [List.length_take]
  rw [byteAt_take, byteAt_take, byteAt_drop]
  by_cases h1 : i < min s d.length
  · rw [if_pos h1, if_pos (show i < s by omega), if_neg (by omega)]
  · rw [if_neg h1]
    by_cases h2 : i - min s d.length < min (d.length - s) x.length
    · rw [if_pos h2, if_pos (show i - min s d.length < d.length - s by omega),
        if_pos (show s ≤ i ∧ i < s + x.length ∧ i < d.length by omega)]
      congr 1
      omega
    · rw [if_neg h2]
      by_cases h3 : s ≤ i ∧ i < s + x.length ∧ i < d.length
      · exact absurd h3 (by omega)
      · rw [if_neg h3]
        by_cases h4 : i < d.length
        · have he : s + x.length + (i - min s d.length - min (d.length - s) x.length) = i := by
            omega
          rw [he]
        · rw [byteAt_eq_zero d _ (by omega), byteAt_eq_zero d i (by omega)]

theorem length_buildNewChunk (ex wd : List Nat) (wsic wec cwo btw : Nat) :
    (buildNewChunk ex wd wsic wec cwo btw).length = max ex.length wec := by
  unfold buildNewChunk
  by_cases h1 : 0 < wsic <;> by_cases h2 : wec < ex.length <;>
    simp [h1, h2, length_overlay, List.length_replicate]

theorem byteAt_buildNewChunk (ex wd : List Nat) (wsic wec cwo btw i : Nat)
    (hw : wsic ≤ wec) (hb : btw = wec - wsic) :
    byteAt (buildNewChunk ex wd wsic wec cwo btw) i =
      if wsic ≤ i ∧ i < wec then byteAt wd (cwo + (i - wsic)) else byteAt ex i := by
  simp only [buildNewChunk]
  set L := max ex.length wec with hL
  set c1 := if 0 < wsic
    then overlay (List.replicate L 0) 0 (listCopySlice ex 0 (min wsic ex.length))
    else List.replicate L 0 with hc1def
  have hl1 : c1.length = L := by
    rw [hc1def]; split
    · rw [length_overlay, List.length_replicate]
    · exact List.length_replicate L 0
  have hc1 : ∀ j, byteAt c1 j = if j < min wsic ex.length then byteAt ex j else 0 := by
    intro j
    rw [hc1def]
    by_cases h1 : 0 < wsic
    · rw [if_pos h1, byteAt_overlay]
      simp only [listCopySlice, List.drop_zero, Nat.sub_zero, List.length_take,
        List.length_replicate, byteAt_take]
      by_cases h2 : j < min wsic ex.length
      · rw [if_pos (show 0 ≤ j ∧ j < 0 + min wsic ex.length ⊓ ex.length ∧ j < L from
          ⟨Nat.zero_le j, by omega, by omega⟩)]
      · rw [if_neg (by omega), byteAt_replicate_zero, if_neg h2]
    · rw [if_neg h1, byteAt_replicate_zero, if_neg (by omega)]
  set c2 := overlay c1 wsic (listCopySlice wd cwo (cwo + btw)) with hc2def
  have hl2 : c2.length = L := by rw [hc2def, length_overlay, hl1]
  have hsl2len : (listCopySlice wd cwo (cwo + btw)).length = min btw (wd.length - cwo) := by
    simp only [listCopySlice, List.length_take, List.length_drop]
    omega
  have hc2 : ∀ j, byteAt c2 j =
      if wsic ≤ j ∧ j < wsic + min btw (wd.length - cwo) ∧ j < L
      then byteAt wd (cwo + (j - wsic)) else byteAt c1 j := by
    intro j
    rw [hc2def, byteAt_overlay, hl1, hsl2len]
    by_cases h : wsic ≤ j ∧ j < wsic + min btw (wd.length - cwo) ∧ j < L
    · rw [if_pos h, if_pos h]
      simp only [listCopySlice, byteAt_take, byteAt_drop]
      rw [if_pos (by omega)]
    · rw [if_neg h, if_neg h]
  by_cases h2 : wec < ex.length
  · rw [if_pos h2, byteAt_overlay, hl2]
    have hsl3len : (listCopySlice ex wec ex.length).length = ex.length - wec := by
      simp only [listCopySlice, List.length_take, List.length_drop]
      omega
    rw [hsl3len]
    by_cases hcase : wec ≤ i ∧ i < wec + (ex.length - wec) ∧ i < L
    · rw [if_pos hcase]
      simp only [listCopySlice, byteAt_take, byteAt_drop]
      rw [if_pos (by omega), if_neg (by omega)]
      congr 1
      omega
    · rw [if_neg hcase, hc2, hc1]
      by_cases hwin : wsic ≤ i ∧ i < wec
      · rw [if_pos hwin]
        by_cases hdat : i < wsic + min btw (wd.length - cwo)
        · rw [if_pos ⟨hwin.1, hdat, by omega⟩]
        · rw [if_neg (by omega), if_neg (by omega),
            byteAt_eq_zero wd _ (by omega)]
      · rw [if_neg hwin]
        by_cases hlt : i < wsic
        · rw [if_neg (by omega)]
          by_cases hex : i < ex.length
          · rw [if_pos (by omega)]
          · rw [if_neg (by omega), byteAt_eq_zero ex i (by omega)]
        · rw [if_neg (by omega), if_neg (by omega), byteAt_eq_zero ex i (by omega)]
  · rw [if_neg h2, hc2, hc1]
    by_cases hwin : wsic ≤ i ∧ i < wec
    · rw [if_pos hwin]
      by_cases hdat : i < wsic + min btw (wd.length - cwo)
      · rw [if_pos ⟨hwin.1, hdat, by omega⟩]
      · rw [if_neg (by omega), if_neg (by omega), byteAt_eq_zero wd _ (by omega)]
    · rw [if_neg hwin]
      by_cases hlt : i < wsic
      · rw [if_neg (by omega)]
        by_cases hex : i < ex.length
        · rw [if_pos (by omega)]
        · rw [if_neg (by omega), byteAt_eq_zero ex i (by omega)]
      · rw [if_neg (by omega), if_neg (by omega), byteAt_eq_zero ex i (by omega)]
/-! ## ASCII behaviour of the text codecs -/

theorem utf8DecodeCore_ascii :
    ∀ fuel l, List.length l ≤ fuel → asciiL l → utf8DecodeCore fuel l = l := by
  intro fuel
  induction fuel with
  | zero =>
    intro l hl _
    cases l with
    | nil => rfl
    | cons b t => simp at hl
  | succ n ih =>
    intro l hl ha
    cases l with
    | nil => rfl
    | cons b t =>
      have hb : b < 128 := ha b (List.mem_cons_self b t)
      simp only [utf8DecodeCore, if_pos hb]
      rw [ih t (by simpa using hl) (fun x hx => ha x (List.mem_cons_of_mem b hx))]

theorem utf8DecodeCps_ascii (l : List Nat) (h : asciiL l) : utf8DecodeCps l = l :=
  utf8DecodeCore_ascii l.length l le_rfl h

theorem foldr_utf16_ascii (l : List Nat) (h : asciiL l) :
    l.foldr (fun cp acc => utf16Units cp ++ acc) [] = l := by
  induction l with
  | nil => rfl
  | cons b t ih =>
    have hb : b < 128 := h b (List.mem_cons_self b t)
    rw [List.foldr_cons, ih (fun x hx => h x (List.mem_cons_of_mem b hx))]
    simp [utf16Units, show b < 0x10000 by omega]

theorem bufToStr_ascii (l : List Nat) (h : asciiL l) : bufToStr l = l := by
  unfold bufToStr
  rw [utf8DecodeCps_ascii l h, foldr_utf16_ascii l h]

theorem strToBufCore_ascii :
    ∀ fuel l, List.length l ≤ fuel → asciiL l → strToBufCore fuel l = l := by
  intro fuel
  induction fuel with
  | zero =>
    intro l hl _
    cases l with
    | nil => rfl
    | cons b t => simp at hl
  | succ n ih =>
    intro l hl ha
    cases l with
    | nil => rfl
    | cons u t =>
      have hu : u < 128 := ha u (List.mem_cons_self u t)
      simp only [strToBufCore]
      rw [if_pos (Or.inl (show u < 0xD800 by omega))]
      rw [ih t (by simpa using hl) (fun x hx => ha x (List.mem_cons_of_mem u hx))]
      simp [utf8EncodeCp, show u < 0x80 by omega]

theorem strToBuf_ascii (l : List Nat) (h : asciiL l) : strToBuf l = l :=
  strToBufCore_ascii l.length l le_rfl h

/-! ## ASCII closure -/

theorem asciiL_of_subset {a b : List Nat} (hs : a ⊆ b) (h : asciiL b) : asciiL a :=
  fun x hx => h x (hs hx)

theorem asciiL_append {a b : List Nat} (ha : asciiL a) (hb : asciiL b) : asciiL (a ++ b) := by
  intro x hx
  rcases List.mem_append.mp hx with h | h
  · exact ha x h
  · exact hb x h

theorem asciiL_replicate_zero (n : Nat) : asciiL (List.replicate n 0) := by
  intro x hx
  rw [List.eq_of_mem_replicate hx]
  omega

theorem asciiL_overlay {d x : List Nat} (s : Nat) (hd : asciiL d) (hx : asciiL x) :
    asciiL (overlay d s x) := by
  unfold overlay
  exact asciiL_append (asciiL_append (asciiL_of_subset (List.take_subset _ _) hd)
    (asciiL_of_subset (List.take_subset _ _) hx))
    (asciiL_of_subset (List.drop_subset _ _) hd)

theorem asciiL_listCopySlice {src : List Nat} (a b : Nat) (h : asciiL src) :
    asciiL (listCopySlice src a b) :=
  asciiL_of_subset (List.Subset.trans (List.take_subset _ _) (List.drop_subset _ _)) h

theorem asciiL_buildNewChunk {ex wd : List Nat} (wsic wec cwo btw : Nat)
    (hex : asciiL ex) (hwd : asciiL wd) : asciiL (buildNewChunk ex wd wsic wec cwo btw) := by
  unfold buildNewChunk
  by_cases h1 : 0 < wsic <;> by_cases h2 : wec < ex.length <;>
    simp only [h1, h2, if_true, if_false, reduceIte] <;>
    first
      | exact asciiL_overlay _
          (asciiL_overlay _
            (asciiL_overlay _ (asciiL_replicate_zero _) (asciiL_listCopySlice _ _ hex))
            (asciiL_listCopySlice _ _ hwd))
          (asciiL_listCopySlice _ _ hex)
      | exact asciiL_overlay _
          (asciiL_overlay _ (asciiL_replicate_zero _) (asciiL_listCopySlice _ _ hex))
          (asciiL_listCopySlice _ _ hwd)
      | exact asciiL_overlay _
          (asciiL_overlay _ (asciiL_replicate_zero _) (asciiL_listCopySlice _ _ hwd))
          (asciiL_listCopySlice _ _ hex)
      | exact asciiL_overlay _ (asciiL_overlay _ (asciiL_replicate_zero _)
          (asciiL_listCopySlice _ _ hwd)) (asciiL_listCopySlice _ _ hex)
      | exact asciiL_overlay _ (asciiL_replicate_zero _) (asciiL_listCopySlice _ _ hwd)

/-! ## Decimal digits are injective -/

theorem fromDigits_append_digit (l : JStr) (d : Nat) :
    fromDigits (l ++ [d]) = fromDigits l * 10 + (d - 48) := by
  simp [fromDigits, List.foldl_append]

theorem fromDigits_decDigitsCore :
    ∀ fuel n, n ≤ fuel → fromDigits (decDigitsCore fuel n) = n := by
  intro fuel
  induction fuel with
  | zero =>
    intro n h
    have : n = 0 := by omega
    subst this
    rfl
  | succ f ih =>
    intro n h
    by_cases hn : n = 0
    · subst hn; rfl
    · simp only [decDigitsCore, if_neg hn]
      rw [fromDigits_append_digit, ih (n / 10) (by omega)]
      simp only [digitUnit]
      omega

theorem fromDigits_decDigits (n : Nat) : fromDigits (decDigits n) = n := by
  unfold decDigits
  by_cases h : n = 0
  · subst h; rfl
  · rw [if_neg h]
    exact fromDigits_decDigitsCore n n le_rfl

theorem decDigits_inj {m n : Nat} (h : decDigits m = decDigits n) : m = n := by
  have h2 := congrArg fromDigits h
  rwa [fromDigits_decDigits, fromDigits_decDigits] at h2

/-! ## Key lemmas -/

theorem chunkKey_inj (p : JStr) {i j : Nat} (h : chunkKey p i = chunkKey p j) : i = j := by
  unfold chunkKey at h
  rw [List.append_assoc, List.append_assoc] at h
  exact decDigits_inj (List.append_cancel_left (List.append_cancel_left h))

theorem metadataKey_ne_chunkKey (p : JStr) (i : Nat) : metadataKey p ≠ chunkKey p i := by
  intro h
  unfold metadataKey chunkKey at h
  rw [List.append_assoc] at h
  have h2 := List.append_cancel_left h
  have h3 : byteAt METADATA_SUFFIX 1 = byteAt (CHUNK_SUFFIX ++ decDigits i) 1 :=
    congrArg (fun l => byteAt l 1) h2
  rw [byteAt_append, if_pos (show (1:Nat) < CHUNK_SUFFIX.length by decide)] at h3
  exact absurd h3 (by decide)

theorem isPrefixOf_append_cancel (p a b : JStr) :
    (p ++ a).isPrefixOf (p ++ b) = a.isPrefixOf b := by
  induction p with
  | nil => rfl
  | cons x t ih => simp [List.isPrefixOf, ih]

theorem isPrefixOf_append_self (a b : JStr) : a.isPrefixOf (a ++ b) = true := by
  have h := isPrefixOf_append_cancel a [] b
  rw [List.append_nil] at h
  rw [h]
  cases b <;> rfl

theorem chunkKeyPre_isPrefixOf_chunkKey (p : JStr) (i : Nat) :
    (chunkKeyPre p).isPrefixOf (chunkKey p i) = true := by
  unfold chunkKeyPre chunkKey
  rw [List.append_assoc, ← List.append_assoc p CHUNK_SUFFIX (decDigits i)]
  exact isPrefixOf_append_self (p ++ CHUNK_SUFFIX) (decDigits i)

/-! ## Store lemmas -/

theorem kvGet_cons (k0 : JStr) (v0 : StoreVal) (st : Store) (k : JStr) :
    kvGet ((k0, v0) :: st) k = if k0 = k then some v0 else kvGet st k := rfl

theorem kvGet_kvDelete (st : Store) (k key : JStr) :
    kvGet (kvDelete st k) key = if key = k then none else kvGet st key := by
  induction st with
  | nil => simp only [kvDelete, kvGet]; split <;> rfl
  | cons e t ih =>
    obtain ⟨k0, v0⟩ := e
    simp only [kvDelete]
    by_cases h : k0 = k
    · rw [if_pos h, ih]
      by_cases h2 : key = k
      · rw [if_pos h2, if_pos h2]
      · rw [if_neg h2, if_neg h2, kvGet_cons, if_neg (fun hh => h2 (by rw [← hh]; exact h))]
    · rw [if_neg h, kvGet_cons, kvGet_cons, ih]
      by_cases h2 : k0 = key
      · rw [if_pos h2, if_pos h2, if_neg (fun hh => h (h2.trans hh))]
      · rw [if_neg h2, if_neg h2]

theorem kvGet_kvPut_self (st : Store) (k : JStr) (v : StoreVal) :
    kvGet (kvPut st k v) k = some v := by
  simp [kvPut, kvGet_cons]

theorem kvGet_kvPut_ne (st : Store) (k : JStr) (v : StoreVal) (key : JStr) (h : k ≠ key) :
    kvGet (kvPut st k v) key = kvGet st key := by
  rw [kvPut, kvGet_cons, if_neg h, kvGet_kvDelete, if_neg (fun hh => h hh.symm)]

theorem kvGet_foldl_kvDelete (ks : List JStr) (st : Store) (key : JStr) :
    kvGet (ks.foldl kvDelete st) key = if key ∈ ks then none else kvGet st key := by
  induction ks generalizing st with
  | nil => simp
  | cons k t ih =>
    simp only [List.foldl_cons, ih, kvGet_kvDelete]
    by_cases h1 : key ∈ t
    · rw [if_pos h1, if_pos (List.mem_cons_of_mem k h1)]
    · rw [if_neg h1]
      by_cases h2 : key = k
      · rw [if_pos h2, if_pos (by simp [h2])]
      · rw [if_neg h2, if_neg (by simp [h2, h1])]

theorem mem_listKeysUnder_iff (pre k : JStr) (st : Store) :
    k ∈ listKeysUnder pre st ↔ pre.isPrefixOf k = true ∧ ∃ v, (k, v) ∈ st := by
  induction st with
  | nil => simp [listKeysUnder]
  | cons e t ih =>
    obtain ⟨k0, v0⟩ := e
    simp only [listKeysUnder]
    by_cases h : pre.isPrefixOf k0 = true
    · rw [if_pos h]
      constructor
      · intro hm
        rcases List.mem_cons.mp hm with h2 | h2
        · subst h2
          exact ⟨h, v0, List.mem_cons_self _ _⟩
        · obtain ⟨hp, v, hv⟩ := ih.mp h2
          exact ⟨hp, v, List.mem_cons_of_mem _ hv⟩
      · rintro ⟨hp, v, hv⟩
        rcases List.mem_cons.mp hv with h2 | h2
        · have hk : k = k0 := congrArg Prod.fst h2
          rw [hk]
          exact List.mem_cons_self _ _
        · exact List.mem_cons_of_mem _ (ih.mpr ⟨hp, v, h2⟩)
    · rw [if_neg h, ih]
      constructor
      · rintro ⟨hp, v, hv⟩
        exact ⟨hp, v, List.mem_cons_of_mem _ hv⟩
      · rintro ⟨hp, v, hv⟩
        rcases List.mem_cons.mp hv with h2 | h2
        · have hk : k = k0 := congrArg Prod.fst h2
          exact absurd (hk ▸ hp) h
        · exact ⟨hp, v, h2⟩

theorem kvGet_some_mem (st : Store) (k : JStr) (v : StoreVal) (h : kvGet st k = some v) :
    (k, v) ∈ st := by
  induction st with
  | nil => simp [kvGet] at h
  | cons e t ih =>
    obtain ⟨k0, v0⟩ := e
    rw [kvGet_cons] at h
    by_cases h2 : k0 = k
    · rw [if_pos h2] at h
      subst h2
      rw [← Option.some.inj h]
      exact List.mem_cons_self _ _
    · rw [if_neg h2] at h
      exact List.mem_cons_of_mem _ (ih h)
/-! ## Metadata normalisation facts -/

theorem normalizeMeta_size (m : MetaRec) : (normalizeMeta m).size = m.size := by
  unfold normalizeMeta
  split <;> rfl

theorem isDir_normalizeMeta (m : MetaRec) : isDir (normalizeMeta m) = isDir m := by
  unfold normalizeMeta isDir
  split <;> rfl

theorem ceilDiv_spec (s : Nat) (hs : 0 < s) :
    (ceilDiv s MAX_CHUNK_SIZE - 1) * MAX_CHUNK_SIZE < s ∧
      s ≤ ceilDiv s MAX_CHUNK_SIZE * MAX_CHUNK_SIZE := by
  unfold ceilDiv MAX_CHUNK_SIZE
  omega

/-! ## Claim C4 -/

/-- C4 counterexample: on an empty store, a zero-length write to `/f` returns
success with 0 bytes written, but no metadata record for `/f` exists
afterwards — the handler returns before any metadata work (route lines
142-147), so the claim's "a metadata record for the path exists (created if
it was absent)" is false. -/
theorem c4_counterexample :
    WriteRoute.POST (strU "/f") 0 [] 7 [] = .ok ([], 0) ∧
    kvGet [] (metadataKey (strU "/f")) = none := ⟨rfl, rfl⟩

/-- C4 (amended): a write of zero-length data succeeds as a no-op reporting
0 bytes written and performs no store I/O at all: the store is returned
unchanged, so in particular no metadata record is created for an absent
path. -/
theorem c4_zero_write_noop (path : JStr) (offset now : Nat) (st : Store) :
    WriteRoute.POST path offset [] now st = .ok (st, 0) := rfl

/-! ## Claim C8 -/

/-- C8 counterexample: reading size 0 from a path with no metadata record
(the empty store) succeeds with an empty body instead of failing NotFound:
the handler returns before the metadata lookup (route lines 342-344). -/
theorem c8_counterexample :
    ReadRoute.GET (strU "/f") 0 0 [] = .ok [] ∧
    (Except.ok [] : Except Err (List Nat)) ≠ .error .notFound :=
  ⟨rfl, fun h => Except.noConfusion h⟩

/-- C8 (amended): for a path with no metadata record, read fails NotFound
for every offset and every size > 0; a read of size 0 instead returns
success with an empty body without consulting metadata at all. -/
theorem c8_read_notfound (path : JStr) (offset size : Nat) (st : Store)
    (hm : kvGet st (metadataKey path) = none) :
    (0 < size → ReadRoute.GET path offset size st = .error .notFound) ∧
    ReadRoute.GET path offset 0 st = .ok [] := by
  constructor
  · intro hs
    have hgm : ReadRoute.getMetadata path st = .error .notFound := by
      unfold ReadRoute.getMetadata
      rw [hm]
    unfold ReadRoute.GET
    rw [if_neg (by omega)]
    rw [hgm]
  · rfl

/-- C8 witness. -/
theorem c8_witness :
    ReadRoute.GET (strU "/f") 0 1 [] = .error .notFound ∧
    ReadRoute.GET (strU "/f") 0 0 [] = .ok [] :=
  ⟨(c8_read_notfound (strU "/f") 0 1 [] rfl).1 (by decide),
   (c8_read_notfound (strU "/f") 0 1 [] rfl).2⟩

/-! ## Claim C5 -/

/-- C5 counterexample: a stored record with `size = 1` and `num_chunks = 5`
is returned by `getMetadata` with `num_chunks = 5` unchanged, although
`ceil(size / MAX_CHUNK_SIZE) = 1`: a present `num_chunks` that disagrees
with `size` is trusted, not recomputed (route lines 47-49 only fill in a
missing field). -/
theorem c5_counterexample :
    WriteRoute.getMetadata (strU "/f")
        [(metadataKey (strU "/f"), .vmeta ⟨33188, 1000, 1000, 1, 0, 0, 0, some 5⟩)]
      = .ok (some ⟨33188, 1000, 1000, 1, 0, 0, 0, some 5⟩) ∧
    (5 : Nat) ≠ ceilDiv 1 MAX_CHUNK_SIZE := ⟨rfl, by decide⟩

/-- C5 (amended): `num_chunks = ceil(size / MAX_CHUNK_SIZE)` (stated as
`(n-1)·MAX_CHUNK_SIZE < size ≤ n·MAX_CHUNK_SIZE`) holds for every metadata
value returned by `getMetadata` whose stored record has `size > 0` and
**omits** `num_chunks` (the field is then recomputed), and for every
metadata record persisted by a successful non-empty write; a stored
`num_chunks` that disagrees with `size` is returned as-is. -/
theorem c5_num_chunks :
    (∀ (p : JStr) (st : Store) (m : MetaRec),
      kvGet st (metadataKey p) = some (.vmeta m) → m.num_chunks = none → 0 < m.size →
      ∃ n, WriteRoute.getMetadata p st = .ok (some { m with num_chunks := some n }) ∧
        (n - 1) * MAX_CHUNK_SIZE < m.size ∧ m.size ≤ n * MAX_CHUNK_SIZE) ∧
    (∀ (p : JStr) (offset : Nat) (data : List Nat) (now : Nat) (st st2 : Store)
      (written : Nat),
      data ≠ [] → WriteRoute.POST p offset data now st = .ok (st2, written) →
      ∃ m n, kvGet st2 (metadataKey p) = some (.vmeta m) ∧ 0 < m.size ∧
        m.num_chunks = some n ∧
        (n - 1) * MAX_CHUNK_SIZE < m.size ∧ m.size ≤ n * MAX_CHUNK_SIZE) := by
  constructor
  · intro p st m hg hn hs
    refine ⟨ceilDiv m.size MAX_CHUNK_SIZE, ?_, (ceilDiv_spec m.size hs).1,
      (ceilDiv_spec m.size hs).2⟩
    unfold WriteRoute.getMetadata
    rw [hg]
    show Except.ok (some (normalizeMeta m)) = _
    unfold normalizeMeta
    rw [if_pos ⟨hs, hn⟩]
  · intro p offset data now st st2 written hd h
    have hlen : 0 < data.length := List.length_pos.mpr hd
    unfold WriteRoute.POST at h
    rw [if_neg (by omega)] at h
    split at h
    · exact absurd h (by simp)
    · rename_i mOpt heq
      cases mOpt with
      | some m1 =>
        simp only [Option.isSome_some, Option.isNone_some, Bool.true_and] at h
        split at h
        · exact absurd h (by simp)
        · rw [Except.ok.injEq, Prod.mk.injEq] at h
          obtain ⟨hst, hw⟩ := h
          rw [← hst]
          have hsz : (postMeta m1 false (offset + data.length) now).size
              = max m1.size (offset + data.length) := rfl
          refine ⟨_, _, kvGet_kvPut_self _ _ _, ?_, rfl, ?_, ?_⟩
          · rw [hsz]; omega
          · rw [hsz]; exact (ceilDiv_spec _ (by omega)).1
          · rw [hsz]; exact (ceilDiv_spec _ (by omega)).2
      | none =>
        simp only [Option.isSome_none, Option.isNone_none, Bool.false_and,
          Bool.false_eq_true, if_false] at h
        rw [Except.ok.injEq, Prod.mk.injEq] at h
        obtain ⟨hst, hw⟩ := h
        rw [← hst]
        have hsz : (postMeta (newFileMeta now) true (offset + data.length) now).size
            = max 0 (offset + data.length) := rfl
        refine ⟨_, _, kvGet_kvPut_self _ _ _, ?_, rfl, ?_, ?_⟩
        · rw [hsz]; omega
        · rw [hsz]; exact (ceilDiv_spec _ (by omega)).1
        · rw [hsz]; exact (ceilDiv_spec _ (by omega)).2
/-- C5 witness. -/
theorem c5_witness :
    (∃ n, WriteRoute.getMetadata (strU "/w")
        [(metadataKey (strU "/w"), .vmeta ⟨33188, 1000, 1000, 4500, 0, 0, 0, none⟩)]
      = .ok (some { mode := 33188, uid := 1000, gid := 1000, size := 4500, atime := 0,
                    mtime := 0, ctime := 0, num_chunks := some n }) ∧
      (n - 1) * MAX_CHUNK_SIZE < 4500 ∧ 4500 ≤ n * MAX_CHUNK_SIZE) ∧
    (∃ m n, kvGet [(metadataKey (strU "/w2"), .vmeta ⟨33188, 1000, 1000, 1, 3, 3, 3, some 1⟩),
        (chunkKey (strU "/w2") 0, .vstr [65])] (metadataKey (strU "/w2"))
        = some (.vmeta m) ∧ 0 < m.size ∧ m.num_chunks = some n ∧
      (n - 1) * MAX_CHUNK_SIZE < m.size ∧ m.size ≤ n * MAX_CHUNK_SIZE) :=
  ⟨c5_num_chunks.1 (strU "/w")
      [(metadataKey (strU "/w"), .vmeta ⟨33188, 1000, 1000, 4500, 0, 0, 0, none⟩)]
      ⟨33188, 1000, 1000, 4500, 0, 0, 0, none⟩ rfl rfl (by decide),
   c5_num_chunks.2 (strU "/w2") 0 [65] 3 []
      [(metadataKey (strU "/w2"), .vmeta ⟨33188, 1000, 1000, 1, 3, 3, 3, some 1⟩),
       (chunkKey (strU "/w2") 0, .vstr [65])] 1 (by decide) rfl⟩

/-! ## Claim C2 -/

/-- C2 counterexample: a file `/s` of size 6000 with no stored chunk keys;
reading 5 bytes at offset 3000 (entirely within never-written chunk index 1,
below file size) returns an **empty** body, not 5 zero-filled bytes: a
missing chunk contributes nothing to the output (route lines 384-398). -/
theorem c2_counterexample :
    ReadRoute.GET (strU "/s") 3000 5
        [(metadataKey (strU "/s"), .vmeta ⟨33188, 1000, 1000, 6000, 0, 0, 0, some 2⟩)]
      = .ok [] ∧
    ([] : List Nat) ≠ List.replicate 5 0 := ⟨rfl, by decide⟩

theorem ReadRoute.getMetadata_some (p : JStr) (st : Store) (m : MetaRec)
    (h : kvGet st (metadataKey p) = some (.vmeta m)) :
    ReadRoute.getMetadata p st = .ok (normalizeMeta m) := by
  unfold ReadRoute.getMetadata
  rw [h]

/-- C2 (amended): reading a range that lies below the file size and entirely
within a single never-written (sparse) chunk index returns success with an
**empty** result: the missing chunk is skipped, so the reader returns zero
bytes rather than `length` zero-filled bytes. -/
theorem c2_sparse_read_empty (p : JStr) (offset len : Nat) (st : Store) (m : MetaRec)
    (hm : kvGet st (metadataKey p) = some (.vmeta m)) (hnd : isDir m = false)
    (hlen : 0 < len) (hrange : offset + len ≤ m.size)
    (hone : (offset + len - 1) / MAX_CHUNK_SIZE = offset / MAX_CHUNK_SIZE)
    (hsparse : kvGet st (chunkKey p (offset / MAX_CHUNK_SIZE)) = none) :
    ReadRoute.GET p offset len st = .ok [] := by
  have hnd2 : isDir (normalizeMeta m) = false := by rw [isDir_normalizeMeta, hnd]
  have hsz : (normalizeMeta m).size = m.size := normalizeMeta_size m
  simp only [ReadRoute.GET, ReadRoute.getMetadata_some p st m hm]
  rw [if_neg (by omega), if_neg (by simp [hnd2]), if_neg (by omega)]
  rw [hsz]
  have hrs : min len (m.size - offset) = len := by omega
  rw [hrs, if_neg (by omega), hone]
  have hidx : offset / MAX_CHUNK_SIZE + 1 - offset / MAX_CHUNK_SIZE = 1 := by omega
  rw [hidx]
  have hloop : ∀ numChunks, ReadRoute.readChunksLoop p offset len numChunks st
      (idxRange (offset / MAX_CHUNK_SIZE) 1) [] 0 = ([], 0) := by
    intro numChunks
    show ReadRoute.readChunksLoop p offset len numChunks st
      [offset / MAX_CHUNK_SIZE] [] 0 = ([], 0)
    unfold ReadRoute.readChunksLoop
    by_cases hc : offset / MAX_CHUNK_SIZE < numChunks
    · rw [if_pos hc]
      simp only [ReadRoute.getChunk, hsparse, Option.map_none', Option.getD_none,
        List.length_nil]
      rw [if_neg (by omega), if_neg (by omega)]
      have hz : 0 + (0 ⊓ (offset + len - offset / MAX_CHUNK_SIZE * MAX_CHUNK_SIZE)
          - (offset - offset / MAX_CHUNK_SIZE * MAX_CHUNK_SIZE)) = 0 := by omega
      rw [hz]
      rfl
    · rw [if_neg hc]
  rw [hloop]
  rw [if_neg (by simp)]
  rfl

/-- C2 witness. -/
theorem c2_witness :
    ReadRoute.GET (strU "/t") 3000 5
        [(metadataKey (strU "/t"), .vmeta ⟨33188, 1000, 1000, 6000, 0, 0, 0, some 2⟩)]
      = .ok [] :=
  c2_sparse_read_empty (strU "/t") 3000 5 _ _ rfl rfl (by decide) (by decide) (by decide) rfl

/-! ## Claims C1 and C3: counterexamples -/

/-- C1 counterexample: writing the single byte 0xFF (valid binary data, not
valid UTF-8) to a fresh path and reading it back returns the three UTF-8
bytes of U+FFFD, `EF BF BD`, not the original byte: chunks are stored via
`buffer.toString('utf8')` (write route line 224), which replaces invalid
sequences, so the round-trip fails for arbitrary binary data. -/
theorem c1_counterexample :
    (match WriteRoute.POST (strU "/f") 0 [255] 7 [] with
      | .ok r => ReadRoute.GET (strU "/f") 0 1 r.1
      | .error e => .error e) = .ok [239, 191, 189] ∧
    ([239, 191, 189] : List Nat) ≠ [255] := ⟨rfl, by decide⟩

/-- C3 counterexample: a file holding "AB"; overwriting byte 0 with 0xFF and
reading the byte range [0, 1) back yields `EF BF BD` (three bytes), not the
written byte 0xFF: the read-modify-write re-encoding corrupts non-UTF-8
content, so the overwrite postcondition fails for arbitrary binary data. -/
theorem c3_counterexample :
    (match WriteRoute.POST (strU "/g") 0 [65, 66] 7 [] with
      | .ok r =>
        match WriteRoute.POST (strU "/g") 0 [255] 8 r.1 with
        | .ok r2 => ReadRoute.GET (strU "/g") 0 1 r2.1
        | .error e => .error e
      | .error e => .error e) = .ok [239, 191, 189] ∧
    ([239, 191, 189] : List Nat) ≠ [255] := ⟨rfl, by decide⟩
/-! ## The delete route: claims C6, C7, C10 -/

theorem DeleteRoute.getMetadata_some_del (p : JStr) (st : Store) (m : MetaRec)
    (hp1 : p ≠ strU "/") (h : kvGet st (metadataKey p) = some (.vmeta m)) :
    DeleteRoute.getMetadata p st = .ok (some (normalizeMeta m)) := by
  unfold DeleteRoute.getMetadata
  simp only [if_neg hp1, h]

/-- The file branch of DELETE with a succeeding chunk scan
(part_003 lines 163-191), as one equation. -/
theorem DeleteRoute.DELETE_file_scan (p : JStr) (st : Store) (m : MetaRec)
    (hp0 : p ≠ []) (hp1 : p ≠ strU "/")
    (hm : kvGet st (metadataKey p) = some (.vmeta m)) (hnd : isDir m = false) :
    DeleteRoute.DELETE p false st =
      (.ok (), (metadataKey p :: listKeysUnder (chunkKeyPre p) st).foldl kvDelete st) := by
  unfold DeleteRoute.DELETE
  rw [if_neg (by simp [hp0, hp1]), DeleteRoute.getMetadata_some_del p st m hp1 hm]
  have hnd2 : isDir (normalizeMeta m) = false := by rw [isDir_normalizeMeta, hnd]
  simp only [hnd2, Bool.false_eq_true, if_false, DeleteRoute.listAllKeysUnder,
    List.singleton_append]

/-- The file branch of DELETE with a failing chunk scan
(part_003 lines 174-180), as one equation. -/
theorem DeleteRoute.DELETE_file_fail (p : JStr) (st : Store) (m : MetaRec)
    (hp0 : p ≠ []) (hp1 : p ≠ strU "/")
    (hm : kvGet st (metadataKey p) = some (.vmeta m)) (hnd : isDir m = false) :
    DeleteRoute.DELETE p true st = (.ok (), kvDelete st (metadataKey p)) := by
  unfold DeleteRoute.DELETE
  rw [if_neg (by simp [hp0, hp1]), DeleteRoute.getMetadata_some_del p st m hp1 hm]
  have hnd2 : isDir (normalizeMeta m) = false := by rw [isDir_normalizeMeta, hnd]
  simp only [hnd2, Bool.false_eq_true, if_false, if_true, List.foldl_cons, List.foldl_nil]

/-- C6: after a successful delete of a regular file whose metadata records
`num_chunks = n` (with the chunk prefix scan succeeding), none of its `n`
chunk keys and not its metadata key remain retrievable: the handler deletes
the metadata key together with every key found under `path + CHUNK_SUFFIX`,
which covers every stored chunk key of the path. -/
theorem c6_delete_file_cascades (p : JStr) (st : Store) (m : MetaRec) (n : Nat)
    (hp0 : p ≠ []) (hp1 : p ≠ strU "/")
    (hm : kvGet st (metadataKey p) = some (.vmeta m))
    (hnd : isDir m = false) (_hn : m.num_chunks = some n) :
    (DeleteRoute.DELETE p false st).1 = .ok () ∧
    kvGet (DeleteRoute.DELETE p false st).2 (metadataKey p) = none ∧
    ∀ i, i < n → kvGet (DeleteRoute.DELETE p false st).2 (chunkKey p i) = none := by
  rw [DeleteRoute.DELETE_file_scan p st m hp0 hp1 hm hnd]
  refine ⟨rfl, ?_, ?_⟩
  · rw [kvGet_foldl_kvDelete, if_pos (List.mem_cons_self _ _)]
  · intro i _
    rw [kvGet_foldl_kvDelete]
    by_cases hc : kvGet st (chunkKey p i) = none
    · split
      · rfl
      · exact hc
    · rw [if_pos ?_]
      obtain ⟨v, hv⟩ := Option.ne_none_iff_exists'.mp hc
      refine List.mem_cons_of_mem _ ?_
      rw [mem_listKeysUnder_iff]
      exact ⟨chunkKeyPre_isPrefixOf_chunkKey p i, v, kvGet_some_mem st _ v hv⟩

/-- C6 witness. -/
theorem c6_witness :
    (DeleteRoute.DELETE (strU "/d") false
        [(metadataKey (strU "/d"), .vmeta ⟨33188, 1000, 1000, 4000, 0, 0, 0, some 2⟩),
         (chunkKey (strU "/d") 0, .vstr [65]), (chunkKey (strU "/d") 1, .vstr [66])]).1
      = .ok () ∧
    kvGet (DeleteRoute.DELETE (strU "/d") false
        [(metadataKey (strU "/d"), .vmeta ⟨33188, 1000, 1000, 4000, 0, 0, 0, some 2⟩),
         (chunkKey (strU "/d") 0, .vstr [65]), (chunkKey (strU "/d") 1, .vstr [66])]).2
      (metadataKey (strU "/d")) = none ∧
    ∀ i, i < 2 → kvGet (DeleteRoute.DELETE (strU "/d") false
        [(metadataKey (strU "/d"), .vmeta ⟨33188, 1000, 1000, 4000, 0, 0, 0, some 2⟩),
         (chunkKey (strU "/d") 0, .vstr [65]), (chunkKey (strU "/d") 1, .vstr [66])]).2
      (chunkKey (strU "/d") i) = none :=
  c6_delete_file_cascades (strU "/d") _ _ 2 (by decide) (by decide) rfl rfl rfl

/-- C10: when the chunk prefix scan fails with a store error during the
delete of a non-directory path, the handler does not surface the error: it
still deletes the metadata key and returns success, and the path's chunk
keys remain retrievable afterwards (part_003 lines 174-180 log and proceed
with the metadata key alone). -/
theorem c10_delete_scan_failure (p : JStr) (st : Store) (m : MetaRec) (i : Nat)
    (v : StoreVal)
    (hp0 : p ≠ []) (hp1 : p ≠ strU "/")
    (hm : kvGet st (metadataKey p) = some (.vmeta m)) (hnd : isDir m = false)
    (hc : kvGet st (chunkKey p i) = some v) :
    (DeleteRoute.DELETE p true st).1 = .ok () ∧
    kvGet (DeleteRoute.DELETE p true st).2 (metadataKey p) = none ∧
    kvGet (DeleteRoute.DELETE p true st).2 (chunkKey p i) = some v := by
  rw [DeleteRoute.DELETE_file_fail p st m hp0 hp1 hm hnd]
  refine ⟨rfl, ?_, ?_⟩
  · rw [kvGet_kvDelete, if_pos rfl]
  · rw [kvGet_kvDelete, if_neg (fun h => metadataKey_ne_chunkKey p i h.symm), hc]

/-- C10 witness. -/
theorem c10_witness :
    (DeleteRoute.DELETE (strU "/d") true
        [(metadataKey (strU "/d"), .vmeta ⟨33188, 1000, 1000, 4000, 0, 0, 0, some 2⟩),
         (chunkKey (strU "/d") 0, .vstr [65])]).1 = .ok () ∧
    kvGet (DeleteRoute.DELETE (strU "/d") true
        [(metadataKey (strU "/d"), .vmeta ⟨33188, 1000, 1000, 4000, 0, 0, 0, some 2⟩),
         (chunkKey (strU "/d") 0, .vstr [65])]).2 (metadataKey (strU "/d")) = none ∧
    kvGet (DeleteRoute.DELETE (strU "/d") true
        [(metadataKey (strU "/d"), .vmeta ⟨33188, 1000, 1000, 4000, 0, 0, 0, some 2⟩),
         (chunkKey (strU "/d") 0, .vstr [65])]).2 (chunkKey (strU "/d") 0)
      = some (.vstr [65]) :=
  c10_delete_scan_failure (strU "/d") _ _ 0 _ (by decide) (by decide) rfl rfl rfl

/-- C7: deleting a directory under which at least one key exists fails with
DirectoryNotEmpty and deletes nothing (the store is returned unchanged);
deleting a directory with no keys under `path + "/"` succeeds and deletes
only the directory's own metadata key (every other key is untouched). -/
theorem listKeysUnder_eq_nil (st : Store) (pre : JStr)
    (h : ∀ e ∈ st, pre.isPrefixOf e.1 = false) : listKeysUnder pre st = [] := by
  induction st with
  | nil => rfl
  | cons e t ih =>
    obtain ⟨k0, v0⟩ := e
    simp only [listKeysUnder]
    rw [if_neg (by simp [h (k0, v0) (List.mem_cons_self _ _)])]
    exact ih (fun e2 he2 => h e2 (List.mem_cons_of_mem _ he2))

theorem c7_delete_directory (p : JStr) (st : Store) (m : MetaRec)
    (hp0 : p ≠ []) (hp1 : p ≠ strU "/")
    (hm : kvGet st (metadataKey p) = some (.vmeta m)) (hd : isDir m = true) :
    ((∃ e ∈ st, (dirPre p).isPrefixOf e.1 = true) →
      DeleteRoute.DELETE p false st = (.error .directoryNotEmpty, st)) ∧
    ((∀ e ∈ st, (dirPre p).isPrefixOf e.1 = false) →
      (DeleteRoute.DELETE p false st).1 = .ok () ∧
      kvGet (DeleteRoute.DELETE p false st).2 (metadataKey p) = none ∧
      ∀ key, key ≠ metadataKey p →
        kvGet (DeleteRoute.DELETE p false st).2 key = kvGet st key) := by
  have hd2 : isDir (normalizeMeta m) = true := by rw [isDir_normalizeMeta, hd]
  have hbase : DeleteRoute.DELETE p false st =
      (if 0 < (listKeysUnder (dirPre p) st).length
       then (.error .directoryNotEmpty, st)
       else (.ok (), kvDelete st (metadataKey p))) := by
    unfold DeleteRoute.DELETE
    rw [if_neg (by simp [hp0, hp1]), DeleteRoute.getMetadata_some_del p st m hp1 hm]
    simp only [hd2, if_true, DeleteRoute.listAllKeysUnder]
  constructor
  · rintro ⟨e, he, hpe⟩
    rw [hbase, if_pos ?_]
    have hmem : e.1 ∈ listKeysUnder (dirPre p) st := by
      rw [mem_listKeysUnder_iff]
      exact ⟨hpe, e.2, by simpa using he⟩
    exact List.length_pos.mpr (fun hnil => by simp [hnil] at hmem)
  · intro hall
    rw [hbase, if_neg ?_]
    · refine ⟨rfl, ?_, ?_⟩
      · rw [kvGet_kvDelete, if_pos rfl]
      · intro key hk
        rw [kvGet_kvDelete, if_neg hk]
    · rw [listKeysUnder_eq_nil st (dirPre p) hall]
      simp

/-- C7 witness. -/
theorem c7_witness :
    ((∃ e ∈ [(metadataKey (strU "/dir"), StoreVal.vmeta ⟨16877, 1000, 1000, 0, 0, 0, 0, none⟩),
         (metadataKey (strU "/dir/ch"), StoreVal.vmeta ⟨33188, 1000, 1000, 1, 0, 0, 0, some 1⟩)],
        (dirPre (strU "/dir")).isPrefixOf e.1 = true) →
      DeleteRoute.DELETE (strU "/dir") false
        [(metadataKey (strU "/dir"), .vmeta ⟨16877, 1000, 1000, 0, 0, 0, 0, none⟩),
         (metadataKey (strU "/dir/ch"), .vmeta ⟨33188, 1000, 1000, 1, 0, 0, 0, some 1⟩)]
      = (.error .directoryNotEmpty,
        [(metadataKey (strU "/dir"), .vmeta ⟨16877, 1000, 1000, 0, 0, 0, 0, none⟩),
         (metadataKey (strU "/dir/ch"), .vmeta ⟨33188, 1000, 1000, 1, 0, 0, 0, some 1⟩)])) ∧
    (∃ e ∈ [(metadataKey (strU "/dir"), StoreVal.vmeta ⟨16877, 1000, 1000, 0, 0, 0, 0, none⟩),
         (metadataKey (strU "/dir/ch"), StoreVal.vmeta ⟨33188, 1000, 1000, 1, 0, 0, 0, some 1⟩)],
        (dirPre (strU "/dir")).isPrefixOf e.1 = true) :=
  ⟨(c7_delete_directory (strU "/dir")
      [(metadataKey (strU "/dir"), .vmeta ⟨16877, 1000, 1000, 0, 0, 0, 0, none⟩),
       (metadataKey (strU "/dir/ch"), .vmeta ⟨33188, 1000, 1000, 1, 0, 0, 0, some 1⟩)]
      ⟨16877, 1000, 1000, 0, 0, 0, 0, none⟩ (by decide) (by decide) rfl rfl).1,
   ⟨(metadataKey (strU "/dir/ch"), .vmeta ⟨33188, 1000, 1000, 1, 0, 0, 0, some 1⟩),
    by decide, by decide⟩⟩
/-! ## The list route: claim C9 -/

theorem perm_pair_cases {α : Type} [DecidableEq α] {l : List α} {a b : α}
    (h : l.Perm [a, b]) : l = [a, b] ∨ l = [b, a] := by
  have hlen : l.length = 2 := h.length_eq
  obtain ⟨x, y, rfl⟩ : ∃ x y, l = [x, y] := by
    match l, hlen with
    | [x, y], _ => exact ⟨x, y, rfl⟩
  have hx : x ∈ [a, b] := h.mem_iff.mp (List.mem_cons_self x [y])
  rcases List.mem_cons.mp hx with h1 | h1
  · subst h1
    have h2 : [y].Perm [b] := h.cons_inv
    rw [List.perm_singleton.mp h2]
    exact Or.inl rfl
  · have h1b : x = b := by simpa using h1
    rw [h1b] at h
    have h2 : [y].Perm [a] := (h.trans (List.Perm.swap b a [])).cons_inv
    rw [List.perm_singleton.mp h2, h1b]
    exact Or.inr rfl

/-- C9: for a store holding exactly the keys `/a/x.__meta__` and
`/a/y/z.__meta__` (with arbitrary values and in either enumeration order),
listing `/a` yields exactly the two entries `x` (classified as a file, the
route's default for a direct-child metadata key) and `y` (a directory,
inferred from the rolled-up common prefix), with no duplicate names. -/
theorem c9_listing_distinct (st : Store) (v1 v2 : StoreVal)
    (hperm : st.Perm [(strU "/a/x.__meta__", v1), (strU "/a/y/z.__meta__", v2)]) :
    (ListRoute.GET (strU "/a") st).Perm
      [⟨strU "x", false⟩, ⟨strU "y", true⟩] := by
  rcases perm_pair_cases hperm with h | h <;> subst h
  · exact List.Perm.refl _
  · exact List.Perm.swap _ _ _

/-- C9 witness. -/
theorem c9_witness :
    (ListRoute.GET (strU "/a")
      [(strU "/a/x.__meta__", StoreVal.vstr []),
       (strU "/a/y/z.__meta__", StoreVal.vstr [])]).Perm
      [⟨strU "x", false⟩, ⟨strU "y", true⟩] :=
  c9_listing_distinct
    [(strU "/a/x.__meta__", StoreVal.vstr []), (strU "/a/y/z.__meta__", StoreVal.vstr [])]
    (StoreVal.vstr []) (StoreVal.vstr []) (List.Perm.refl _)
/-! ## The write loop: stored-chunk characterisation -/

theorem existingChunk_eq (p : JStr) (i : Nat) (st : Store) :
    (match WriteRoute.getChunk p i st with
      | some s => strToBuf s
      | none => []) = existingAt st p i := by
  unfold WriteRoute.getChunk existingAt
  cases kvGet st (chunkKey p i) <;> rfl

theorem newChunkAt_eq (st : Store) (p : JStr) (offset : Nat) (data : List Nat) (i : Nat) :
    buildNewChunk (existingAt st p i) data (offset - i * MAX_CHUNK_SIZE)
      (min MAX_CHUNK_SIZE (offset + data.length - i * MAX_CHUNK_SIZE))
      (i * MAX_CHUNK_SIZE - offset)
      (min MAX_CHUNK_SIZE (offset + data.length - i * MAX_CHUNK_SIZE)
        - (offset - i * MAX_CHUNK_SIZE))
      = newChunkAt st p offset data i := rfl

theorem newChunkAt_frame (st : Store) (p : JStr) (offset : Nat) (data : List Nat)
    (j i : Nat) (v : StoreVal) (hne : i ≠ j) :
    newChunkAt (kvPut st (chunkKey p j) v) p offset data i = newChunkAt st p offset data i := by
  unfold newChunkAt existingAt
  rw [kvGet_kvPut_ne st (chunkKey p j) v (chunkKey p i)
    (fun h => hne (chunkKey_inj p h).symm)]

theorem writeChunksLoop_cons (p : JStr) (offset : Nat) (data : List Nat)
    (i : Nat) (rest : List Nat) (cwo : Nat) (st : Store) :
    WriteRoute.writeChunksLoop p offset data (i :: rest) cwo st =
      WriteRoute.writeChunksLoop p offset data rest
        (cwo + (min MAX_CHUNK_SIZE (offset + data.length - i * MAX_CHUNK_SIZE)
          - (offset - i * MAX_CHUNK_SIZE)))
        (kvPut st (chunkKey p i) (.vstr (bufToStr
          (buildNewChunk (existingAt st p i) data (offset - i * MAX_CHUNK_SIZE)
            (min MAX_CHUNK_SIZE (offset + data.length - i * MAX_CHUNK_SIZE)) cwo
            (min MAX_CHUNK_SIZE (offset + data.length - i * MAX_CHUNK_SIZE)
              - (offset - i * MAX_CHUNK_SIZE)))))) := by
  conv_lhs => rw [WriteRoute.writeChunksLoop]
  rw [existingChunk_eq]
  rfl

theorem writeChunksLoop_spec (p : JStr) (offset : Nat) (data : List Nat)
    (hlen : 0 < data.length) :
    ∀ k s st cwo,
      offset / MAX_CHUNK_SIZE ≤ s →
      s + k = (offset + data.length - 1) / MAX_CHUNK_SIZE + 1 →
      (k = 0 ∨ cwo = s * MAX_CHUNK_SIZE - offset) →
      ∃ stOut cwoOut,
        WriteRoute.writeChunksLoop p offset data (idxRange s k) cwo st = (stOut, cwoOut) ∧
        (∀ i, s ≤ i → i < s + k →
          kvGet stOut (chunkKey p i)
            = some (.vstr (bufToStr (newChunkAt st p offset data i)))) ∧
        (∀ key, (∀ i, s ≤ i → i < s + k → key ≠ chunkKey p i) →
          kvGet stOut key = kvGet st key) := by
  intro k
  induction k with
  | zero =>
    intro s st cwo _ _ _
    exact ⟨st, cwo, rfl, fun i h1 h2 => absurd h2 (by omega), fun key _ => rfl⟩
  | succ k ih =>
    intro s st cwo hs hE hcwo
    rcases hcwo with hk | hcwo
    · exact absurd hk (by omega)
    show ∃ stOut cwoOut,
      WriteRoute.writeChunksLoop p offset data (s :: idxRange (s + 1) k) cwo st
        = (stOut, cwoOut) ∧ _ ∧ _
    rw [writeChunksLoop_cons, hcwo, newChunkAt_eq]
    set st1 := kvPut st (chunkKey p s)
      (.vstr (bufToStr (newChunkAt st p offset data s))) with hst1
    have hcwo1 : k = 0 ∨ (s * MAX_CHUNK_SIZE - offset)
        + (min MAX_CHUNK_SIZE (offset + data.length - s * MAX_CHUNK_SIZE)
          - (offset - s * MAX_CHUNK_SIZE)) = (s + 1) * MAX_CHUNK_SIZE - offset := by
      by_cases hk : k = 0
      · exact Or.inl hk
      · refine Or.inr ?_
        have hsE : s + 1 ≤ (offset + data.length - 1) / MAX_CHUNK_SIZE := by omega
        simp only [MAX_CHUNK_SIZE] at *
        omega
    obtain ⟨stOut, cwoOut, hloop, hchunks, hframe⟩ :=
      ih (s + 1) st1 _ (by omega) (by omega) hcwo1
    refine ⟨stOut, cwoOut, hloop, ?_, ?_⟩
    · intro i h1 h2
      by_cases hi : i = s
      · subst hi
        rw [hframe (chunkKey p i)
          (fun j hj1 _ hj => absurd (chunkKey_inj p hj) (by omega))]
        rw [hst1, kvGet_kvPut_self]
      · rw [hchunks i (by omega) (by omega), hst1,
          newChunkAt_frame st p offset data s i _ hi]
    · intro key hkey
      rw [hframe key (fun i h1 h2 => hkey i (by omega) (by omega)), hst1,
        kvGet_kvPut_ne _ _ _ _ (fun h => hkey s (by omega) (by omega) h.symm)]
theorem WriteRoute.getMetadata_none (p : JStr) (st : Store)
    (h : kvGet st (metadataKey p) = none) :
    WriteRoute.getMetadata p st = .ok none := by
  unfold WriteRoute.getMetadata
  rw [h]

theorem WriteRoute.getMetadata_vmeta (p : JStr) (st : Store) (m : MetaRec)
    (h : kvGet st (metadataKey p) = some (.vmeta m)) :
    WriteRoute.getMetadata p st = .ok (some (normalizeMeta m)) := by
  unfold WriteRoute.getMetadata
  rw [h]

theorem writeMetadata_get_self (p : JStr) (m : MetaRec) (st : Store) :
    kvGet (WriteRoute.writeMetadata p m st) (metadataKey p) = some (.vmeta m) :=
  kvGet_kvPut_self _ _ _

theorem writeMetadata_get_ne (p : JStr) (m : MetaRec) (st : Store) (key : JStr)
    (h : metadataKey p ≠ key) :
    kvGet (WriteRoute.writeMetadata p m st) key = kvGet st key :=
  kvGet_kvPut_ne _ _ _ _ h

/-- The full postcondition of a successful non-empty write: the handler
returns `bytesWritten = len(data)`, persists `postMeta` under the metadata
key, stores `newChunkAt` under every affected chunk key, and leaves every
other key untouched. -/
theorem POST_spec (p : JStr) (offset : Nat) (data : List Nat) (now : Nat) (st : Store)
    (m1 : MetaRec) (isNew : Bool) (hd : data ≠ [])
    (hmeta : (kvGet st (metadataKey p) = none ∧ m1 = newFileMeta now ∧ isNew = true) ∨
      (∃ m0, kvGet st (metadataKey p) = some (.vmeta m0) ∧ m1 = normalizeMeta m0 ∧
        isDir m0 = false ∧ isNew = false)) :
    ∃ stOut,
      WriteRoute.POST p offset data now st = .ok (stOut, data.length) ∧
      kvGet stOut (metadataKey p)
        = some (.vmeta (postMeta m1 isNew (offset + data.length) now)) ∧
      (∀ i, offset / MAX_CHUNK_SIZE ≤ i →
        i ≤ (offset + data.length - 1) / MAX_CHUNK_SIZE →
        kvGet stOut (chunkKey p i)
          = some (.vstr (bufToStr (newChunkAt st p offset data i)))) ∧
      (∀ key, key ≠ metadataKey p →
        (∀ i, offset / MAX_CHUNK_SIZE ≤ i →
          i ≤ (offset + data.length - 1) / MAX_CHUNK_SIZE → key ≠ chunkKey p i) →
        kvGet stOut key = kvGet st key) := by
  have hlen : 0 < data.length := List.length_pos.mpr hd
  have hsE : offset / MAX_CHUNK_SIZE ≤ (offset + data.length - 1) / MAX_CHUNK_SIZE :=
    Nat.div_le_div_right (by omega)
  obtain ⟨stL, cwoL, hloop, hchunks, hframe⟩ :=
    writeChunksLoop_spec p offset data hlen
      ((offset + data.length - 1) / MAX_CHUNK_SIZE + 1 - offset / MAX_CHUNK_SIZE)
      (offset / MAX_CHUNK_SIZE) st 0 le_rfl (by omega)
      (Or.inr (by simp only [MAX_CHUNK_SIZE]; omega))
  unfold WriteRoute.POST
  rw [if_neg (by omega)]
  rcases hmeta with ⟨hnone, hm1, hisNew⟩ | ⟨m0, hsome, hm1, hnd, hisNew⟩
  · rw [WriteRoute.getMetadata_none p st hnone]
    simp only [Option.isSome_none, Option.isNone_none, Bool.false_and, Bool.false_eq_true,
      if_false, hloop]
    subst hm1 hisNew
    refine ⟨_, rfl, writeMetadata_get_self _ _ _, ?_, ?_⟩
    · intro i h1 h2
      rw [writeMetadata_get_ne _ _ _ _ (metadataKey_ne_chunkKey p i)]
      exact hchunks i h1 (by omega)
    · intro key hk hkc
      rw [writeMetadata_get_ne _ _ _ _ (fun h => hk h.symm)]
      exact hframe key (fun i hi1 hi2 => hkc i hi1 (by omega))
  · rw [WriteRoute.getMetadata_vmeta p st m0 hsome]
    have hnd2 : isDir (normalizeMeta m0) = false := by rw [isDir_normalizeMeta, hnd]
    simp only [Option.isSome_some, Option.isNone_some, Bool.true_and, hnd2,
      Bool.false_eq_true, if_false, hloop]
    subst hm1 hisNew
    refine ⟨_, rfl, writeMetadata_get_self _ _ _, ?_, ?_⟩
    · intro i h1 h2
      rw [writeMetadata_get_ne _ _ _ _ (metadataKey_ne_chunkKey p i)]
      exact hchunks i h1 (by omega)
    · intro key hk hkc
      rw [writeMetadata_get_ne _ _ _ _ (fun h => hk h.symm)]
      exact hframe key (fun i hi1 hi2 => hkc i hi1 (by omega))
theorem fileByte_eq (st : Store) (p : JStr) (k : Nat) :
    fileByte st p k = byteAt (existingAt st p (k / MAX_CHUNK_SIZE)) (k % MAX_CHUNK_SIZE) := by
  unfold fileByte existingAt
  cases kvGet st (chunkKey p (k / MAX_CHUNK_SIZE)) with
  | none => rw [byteAt_nil]
  | some v => rfl

theorem fileByte_congr (st1 st2 : Store) (p : JStr) (k : Nat)
    (h : kvGet st1 (chunkKey p (k / MAX_CHUNK_SIZE))
      = kvGet st2 (chunkKey p (k / MAX_CHUNK_SIZE))) :
    fileByte st1 p k = fileByte st2 p k := by
  unfold fileByte
  rw [h]

theorem asciiL_existingAt (st : Store) (p : JStr) (i : Nat) (hok : chunkOk st p i) :
    asciiL (existingAt st p i) := by
  unfold chunkOk at hok
  unfold existingAt
  cases h : kvGet st (chunkKey p i) with
  | none => intro b hb; cases hb
  | some v =>
    rw [h] at hok
    cases v with
    | vstr s =>
      have hok2 : asciiL s := hok
      show asciiL (strToBuf s)
      rw [strToBuf_ascii s hok2]
      exact hok2
    | vmeta m => exact (hok : False).elim

theorem asciiL_newChunkAt (st : Store) (p : JStr) (offset : Nat) (data : List Nat)
    (i : Nat) (hok : chunkOk st p i) (hascii : asciiL data) :
    asciiL (newChunkAt st p offset data i) :=
  asciiL_buildNewChunk _ _ _ _ (asciiL_existingAt st p i hok) hascii

/-- C3 (amended): for ASCII data (all bytes < 0x80) written over a regular
file all of whose stored chunk values are ASCII strings, a successful
`write(path, offset, data)` leaves the file's logical bytes in
`[offset, offset + len(data))` equal to `data` and every logical byte
outside that range unchanged, including across chunk boundaries.  (For
non-ASCII content the `toString('utf8')` re-encoding corrupts bytes, see the
counterexample.) -/
theorem c3_overwrite_frame_ascii (p : JStr) (offset now : Nat) (data : List Nat)
    (st : Store) (m0 : MetaRec)
    (hm : kvGet st (metadataKey p) = some (.vmeta m0)) (hnd : isDir m0 = false)
    (hd : data ≠ []) (hascii : asciiL data) (hok : ∀ i, chunkOk st p i) :
    ∃ stOut, WriteRoute.POST p offset data now st = .ok (stOut, data.length) ∧
      ∀ k, fileByte stOut p k =
        if offset ≤ k ∧ k < offset + data.length
        then byteAt data (k - offset) else fileByte st p k := by
  obtain ⟨stOut, hpost, _, hchunks, hframe⟩ :=
    POST_spec p offset data now st (normalizeMeta m0) false hd (Or.inr ⟨m0, hm, rfl, hnd, rfl⟩)
  have hlen : 0 < data.length := List.length_pos.mpr hd
  refine ⟨stOut, hpost, ?_⟩
  intro k
  by_cases hcin : offset / MAX_CHUNK_SIZE ≤ k / MAX_CHUNK_SIZE ∧
      k / MAX_CHUNK_SIZE ≤ (offset + data.length - 1) / MAX_CHUNK_SIZE
  · have hex : existingAt stOut p (k / MAX_CHUNK_SIZE)
        = newChunkAt st p offset data (k / MAX_CHUNK_SIZE) := by
      unfold existingAt
      rw [hchunks (k / MAX_CHUNK_SIZE) hcin.1 hcin.2]
      show strToBuf (bufToStr (newChunkAt st p offset data (k / MAX_CHUNK_SIZE))) = _
      have ha := asciiL_newChunkAt st p offset data (k / MAX_CHUNK_SIZE)
        (hok (k / MAX_CHUNK_SIZE)) hascii
      rw [bufToStr_ascii _ ha, strToBuf_ascii _ ha]
    rw [fileByte_eq, hex]
    unfold newChunkAt
    rw [byteAt_buildNewChunk _ _ _ _ _ _ _
      (by simp only [MAX_CHUNK_SIZE] at *; omega) rfl]
    by_cases hwin : offset ≤ k ∧ k < offset + data.length
    · rw [if_pos (by simp only [MAX_CHUNK_SIZE] at *; omega), if_pos hwin]
      congr 1
      simp only [MAX_CHUNK_SIZE] at *
      omega
    · rw [if_neg (by simp only [MAX_CHUNK_SIZE] at *; omega), if_neg hwin,
        fileByte_eq st p k]
  · have hfr : kvGet stOut (chunkKey p (k / MAX_CHUNK_SIZE))
        = kvGet st (chunkKey p (k / MAX_CHUNK_SIZE)) := by
      refine hframe _ (fun h => metadataKey_ne_chunkKey p _ h.symm) ?_
      intro i h1 h2 hkey
      exact hcin ((chunkKey_inj p hkey) ▸ ⟨h1, h2⟩)
    rw [fileByte_congr stOut st p k hfr,
      if_neg (by simp only [MAX_CHUNK_SIZE] at *; omega)]

/-- C3 witness. -/
theorem c3_witness :
    ∃ stOut, WriteRoute.POST (strU "/f") 0 [66] 9
        [(metadataKey (strU "/f"), .vmeta ⟨33188, 1000, 1000, 1, 0, 0, 0, some 1⟩),
         (chunkKey (strU "/f") 0, .vstr [65])] = .ok (stOut, 1) ∧
      ∀ k, fileByte stOut (strU "/f") k =
        if 0 ≤ k ∧ k < 0 + 1
        then byteAt [66] (k - 0)
        else fileByte [(metadataKey (strU "/f"),
          StoreVal.vmeta ⟨33188, 1000, 1000, 1, 0, 0, 0, some 1⟩),
          (chunkKey (strU "/f") 0, StoreVal.vstr [65])] (strU "/f") k := by
  have h := c3_overwrite_frame_ascii (strU "/f") 0 9 [66]
    [(metadataKey (strU "/f"), .vmeta ⟨33188, 1000, 1000, 1, 0, 0, 0, some 1⟩),
     (chunkKey (strU "/f") 0, .vstr [65])]
    ⟨33188, 1000, 1000, 1, 0, 0, 0, some 1⟩ rfl rfl (by decide)
    (by intro b hb; simp at hb; omega) ?_
  · exact h
  · intro i
    unfold chunkOk
    cases hkv : kvGet [(metadataKey (strU "/f"),
        StoreVal.vmeta ⟨33188, 1000, 1000, 1, 0, 0, 0, some 1⟩),
        (chunkKey (strU "/f") 0, StoreVal.vstr [65])] (chunkKey (strU "/f") i) with
    | none => exact trivial
    | some v =>
      rw [kvGet_cons, if_neg (metadataKey_ne_chunkKey (strU "/f") i), kvGet_cons] at hkv
      by_cases hi : i = 0
      · subst hi
        rw [if_pos rfl] at hkv
        cases hkv
        intro b hb
        simp at hb
        omega
      · rw [if_neg (fun hc => hi (chunkKey_inj (strU "/f") hc).symm)] at hkv
        cases hkv
theorem normalizeMeta_some (m : MetaRec) (n : Nat) (h : m.num_chunks = some n) :
    normalizeMeta m = m := by
  unfold normalizeMeta
  rw [if_neg (by simp [h])]

theorem jsSubstring_full (s : JStr) : jsSubstring s 0 s.length = s := by
  unfold jsSubstring
  rw [Nat.max_eq_right (Nat.zero_le _), Nat.min_eq_left (Nat.zero_le _),
    List.take_length, List.drop_zero]

theorem buildNewChunk_nil (D : List Nat) (w c : Nat) (hw : c + w ≤ D.length) :
    buildNewChunk [] D 0 w c w = (D.drop c).take w := by
  unfold buildNewChunk
  rw [if_neg (by simp), if_neg (by omega)]
  have hsl : (listCopySlice D c (c + w)).length = w := by
    simp only [listCopySlice, List.length_take, List.length_drop]
    omega
  unfold overlay
  simp only [List.take_zero, List.length_replicate, List.length_nil, Nat.zero_max,
    Nat.sub_zero, Nat.zero_add, hsl, List.nil_append]
  rw [List.drop_replicate]
  simp only [Nat.sub_self, List.replicate_zero, List.append_nil]
  rw [List.take_of_length_le (le_of_eq hsl)]
  simp only [listCopySlice]
  rw [show c + w - c = w from by omega]

theorem readChunksLoop_slices (p : JStr) (D : List Nat) (st : Store) (hL : 0 < D.length)
    (hch : ∀ i, i * MAX_CHUNK_SIZE < D.length →
      kvGet st (chunkKey p i)
        = some (.vstr ((D.drop (i * MAX_CHUNK_SIZE)).take MAX_CHUNK_SIZE))) :
    ∀ k s acc br, 0 < k →
      s + k = (D.length - 1) / MAX_CHUNK_SIZE + 1 →
      br = s * MAX_CHUNK_SIZE →
      ReadRoute.readChunksLoop p 0 D.length (ceilDiv D.length MAX_CHUNK_SIZE) st
        (idxRange s k) acc br = (acc ++ D.drop (s * MAX_CHUNK_SIZE), D.length) := by
  intro k
  induction k with
  | zero => intro s acc br hk; exact absurd hk (by omega)
  | succ k ih =>
    intro s acc br _ hE hbr
    have hE3 : s + (k + 1) = (D.length - 1) / 3000 + 1 := hE
    have hsL : s * 3000 < D.length := by omega
    show ReadRoute.readChunksLoop p 0 D.length (ceilDiv D.length MAX_CHUNK_SIZE) st
      (s :: idxRange (s + 1) k) acc br = _
    conv_lhs => rw [ReadRoute.readChunksLoop]
    have hnum : s < ceilDiv D.length MAX_CHUNK_SIZE := by
      show s < (D.length + 3000 - 1) / 3000
      omega
    rw [if_pos hnum]
    have hgc : ReadRoute.getChunk p s st
        = some ((D.drop (s * MAX_CHUNK_SIZE)).take MAX_CHUNK_SIZE) := by
      unfold ReadRoute.getChunk
      rw [hch s hsL]
      rfl
    rw [hgc]
    simp only [Option.getD_some, List.length_take, List.length_drop]
    rw [show (0 : Nat) - s * MAX_CHUNK_SIZE = 0 from by omega]
    have hrei : min (min MAX_CHUNK_SIZE (D.length - s * MAX_CHUNK_SIZE))
        (0 + D.length - s * MAX_CHUNK_SIZE)
        = min MAX_CHUNK_SIZE (D.length - s * MAX_CHUNK_SIZE) := by
      show min (min 3000 (D.length - s * 3000)) (0 + D.length - s * 3000)
        = min 3000 (D.length - s * 3000)
      omega
    rw [hrei]
    rw [show min MAX_CHUNK_SIZE (D.length - s * MAX_CHUNK_SIZE) - 0
      = min MAX_CHUNK_SIZE (D.length - s * MAX_CHUNK_SIZE) from by omega]
    rw [if_pos (show 0 < min MAX_CHUNK_SIZE (D.length - s * MAX_CHUNK_SIZE) from by
      show 0 < min 3000 (D.length - s * 3000)
      omega)]
    have hsub : jsSubstring ((D.drop (s * MAX_CHUNK_SIZE)).take MAX_CHUNK_SIZE) 0
        (min MAX_CHUNK_SIZE (D.length - s * MAX_CHUNK_SIZE))
        = (D.drop (s * MAX_CHUNK_SIZE)).take MAX_CHUNK_SIZE := by
      have hlen2 : ((D.drop (s * MAX_CHUNK_SIZE)).take MAX_CHUNK_SIZE).length
          = min MAX_CHUNK_SIZE (D.length - s * MAX_CHUNK_SIZE) := by
        simp only [List.length_take, List.length_drop]
      rw [← hlen2, jsSubstring_full]
    rw [hsub, hbr]
    by_cases hk0 : k = 0
    · subst hk0
      rw [if_pos (show D.length ≤ s * MAX_CHUNK_SIZE
          + min MAX_CHUNK_SIZE (D.length - s * MAX_CHUNK_SIZE) from by
        show D.length ≤ s * 3000 + min 3000 (D.length - s * 3000)
        omega)]
      rw [List.take_of_length_le (show (D.drop (s * MAX_CHUNK_SIZE)).length
          ≤ MAX_CHUNK_SIZE from by
        simp only [List.length_drop]
        show D.length - s * 3000 ≤ 3000
        omega)]
      have hbr2 : s * MAX_CHUNK_SIZE + min MAX_CHUNK_SIZE (D.length - s * MAX_CHUNK_SIZE)
          = D.length := by
        show s * 3000 + min 3000 (D.length - s * 3000) = D.length
        omega
      rw [hbr2]
    · have hmin : min MAX_CHUNK_SIZE (D.length - s * MAX_CHUNK_SIZE) = MAX_CHUNK_SIZE := by
        show min 3000 (D.length - s * 3000) = 3000
        omega
      rw [hmin]
      rw [if_neg (show ¬D.length ≤ s * MAX_CHUNK_SIZE + MAX_CHUNK_SIZE from by
        show ¬D.length ≤ s * 3000 + 3000
        omega)]
      rw [show s * MAX_CHUNK_SIZE + MAX_CHUNK_SIZE = (s + 1) * MAX_CHUNK_SIZE from by ring]
      rw [ih (s + 1) _ _ (by omega) (by omega) rfl]
      rw [List.append_assoc]
      congr 1
      rw [show (s + 1) * MAX_CHUNK_SIZE = s * MAX_CHUNK_SIZE + MAX_CHUNK_SIZE from by ring,
        ← List.drop_drop, List.take_append_drop]
/-- C1 (amended): the write/read round-trip holds for ASCII data.  For every
byte sequence `D` whose bytes are all below 0x80, with
`0 ≤ len(D) ≤ 10 × MAX_CHUNK_SIZE`, writing `D` at offset 0 to a path with
no existing metadata or chunk keys and then reading `len(D)` bytes at
offset 0 returns exactly `D`.  (For arbitrary binary data the round-trip
fails, see the counterexample: the chunk store is not binary-safe.) -/
theorem c1_roundtrip_ascii (p : JStr) (D : List Nat) (now : Nat) (st : Store)
    (hlen10 : D.length ≤ 10 * MAX_CHUNK_SIZE) (hascii : asciiL D)
    (hmeta : kvGet st (metadataKey p) = none)
    (hchunks : ∀ i, kvGet st (chunkKey p i) = none) :
    ∃ stOut, WriteRoute.POST p 0 D now st = .ok (stOut, D.length) ∧
      ReadRoute.GET p 0 D.length stOut = .ok D := by
  by_cases hD : D = []
  · subst hD
    exact ⟨st, rfl, rfl⟩
  · have hL : 0 < D.length := List.length_pos.mpr hD
    obtain ⟨stOut, hpost, hmetaOut, hchunksOut, _⟩ :=
      POST_spec p 0 D now st (newFileMeta now) true hD (Or.inl ⟨hmeta, rfl, rfl⟩)
    refine ⟨stOut, hpost, ?_⟩
    have hslice : ∀ i, i * MAX_CHUNK_SIZE < D.length →
        kvGet stOut (chunkKey p i)
          = some (.vstr ((D.drop (i * MAX_CHUNK_SIZE)).take MAX_CHUNK_SIZE)) := by
      intro i hi
      have hi3 : i * 3000 < D.length := hi
      rw [hchunksOut i (by show (0:Nat) / 3000 ≤ i; omega)
        (by show i ≤ (0 + D.length - 1) / 3000; omega)]
      have hex : existingAt st p i = [] := by
        unfold existingAt
        rw [hchunks i]
      have hnc : newChunkAt st p 0 D i
          = (D.drop (i * MAX_CHUNK_SIZE)).take MAX_CHUNK_SIZE := by
        unfold newChunkAt
        rw [hex]
        rw [show (0 : Nat) - i * MAX_CHUNK_SIZE = 0 from by omega]
        rw [show i * MAX_CHUNK_SIZE - 0 = i * MAX_CHUNK_SIZE from by omega]
        rw [show min MAX_CHUNK_SIZE (0 + D.length - i * MAX_CHUNK_SIZE) - 0
          = min MAX_CHUNK_SIZE (0 + D.length - i * MAX_CHUNK_SIZE) from by omega]
        rw [buildNewChunk_nil D _ _
          (show i * MAX_CHUNK_SIZE + min MAX_CHUNK_SIZE (0 + D.length - i * MAX_CHUNK_SIZE)
              ≤ D.length from by
            show i * 3000 + min 3000 (0 + D.length - i * 3000) ≤ D.length
            omega)]
        rw [List.take_eq_take.mpr ?_]
        show min (min 3000 (0 + D.length - i * 3000)) (D.drop (i * 3000)).length
          = min 3000 (D.drop (i * 3000)).length
        simp only [List.length_drop]
        omega
      rw [hnc, bufToStr_ascii _ (asciiL_of_subset
        (List.Subset.trans (List.take_subset _ _) (List.drop_subset _ _)) hascii)]
    have hnorm : normalizeMeta (postMeta (newFileMeta now) true (0 + D.length) now)
        = postMeta (newFileMeta now) true (0 + D.length) now :=
      normalizeMeta_some _ _ rfl
    simp only [ReadRoute.GET, ReadRoute.getMetadata_some p stOut _ hmetaOut, hnorm]
    rw [if_neg (show ¬D.length = 0 from by omega)]
    have hdir : ∀ L, isDir (postMeta (newFileMeta now) true L now) = false := by
      intro L
      have hmode : (postMeta (newFileMeta now) true L now).mode = 33188 := rfl
      unfold isDir
      rw [hmode]
      decide
    rw [if_neg (by simp [hdir])]
    have hsize : (postMeta (newFileMeta now) true (0 + D.length) now).size = D.length := by
      show max 0 (0 + D.length) = D.length
      omega
    rw [hsize]
    rw [if_neg (show ¬D.length ≤ 0 from by omega)]
    rw [show min D.length (D.length - 0) = D.length from by omega]
    have hnc2 : (postMeta (newFileMeta now) true (0 + D.length) now).num_chunks.getD
        (ceilDiv D.length MAX_CHUNK_SIZE) = ceilDiv D.length MAX_CHUNK_SIZE := by
      show (some (ceilDiv (max 0 (0 + D.length)) MAX_CHUNK_SIZE)).getD _ = _
      rw [Option.getD_some, show max 0 (0 + D.length) = D.length from by omega]
    rw [hnc2, Nat.zero_div, Nat.zero_add, Nat.sub_zero]
    rw [readChunksLoop_slices p D stOut hL hslice
      ((D.length - 1) / MAX_CHUNK_SIZE + 1) 0 [] 0 (Nat.succ_pos _) (by omega) rfl]
    simp only [List.nil_append, Nat.zero_mul, List.drop_zero]
    rw [if_neg (show ¬D.length < D.length from by omega)]
    rw [strToBuf_ascii D hascii]
    rw [if_neg (show ¬D.length = 0 from by omega)]

/-- C1 witness. -/
theorem c1_witness :
    ∃ stOut, WriteRoute.POST (strU "/f") 0 [72, 105] 7 [] = .ok (stOut, 2) ∧
      ReadRoute.GET (strU "/f") 0 2 stOut = .ok [72, 105] := by
  have h := c1_roundtrip_ascii (strU "/f") [72, 105] 7 [] (by decide)
    (by intro b hb; simp at hb; omega) rfl (fun i => rfl)
  exact h
